import Mathlib

/-!
Verification of the pixijs resource loader and geometry batching pipeline.

Part 1 models `Loader._prepareUrl` and `Loader._add`
(packages/loaders/src/Loader.ts) and the `SpritesheetLoader.use` middleware.
JavaScript strings are modelled as `List Char`; the `parseUri` helper (not part
of the sources at hand) is abstracted by the two booleans it contributes
(`hasProtocol`, `hasPath`).

Part 2 models the geometry batching and draw-call construction pipeline from
the specification (the corresponding code is not among the sources at hand):
batch-part building, the style comparator, the batchability classifier, the
draw-call compiler and the attribute packer.
-/

abbrev JStr := List Char

def strL (s : String) : JStr := s.toList

/-- JavaScript `String.lastIndexOf` for a single character: index of the last
occurrence, `-1` if absent. -/
def jsLastIndexOf (c : Char) : JStr → Int
  | [] => -1
  | x :: xs =>
    if 0 ≤ jsLastIndexOf c xs then jsLastIndexOf c xs + 1
    else if x = c then 0 else -1

/-- JavaScript `String.indexOf` for a single character. -/
def jsIndexOf (c : Char) : JStr → Int
  | [] => -1
  | x :: xs =>
    if x = c then 0
    else if 0 ≤ jsIndexOf c xs then jsIndexOf c xs + 1 else -1

/-- `url.indexOf('//') === 0`, i.e. the string starts with two slashes. -/
def startsWithSlashSlash : JStr → Bool
  | '/' :: '/' :: _ => true
  | _ => false

/-- JavaScript `String.charAt` (returns a one-character string, or the empty
string when out of range). -/
def jsCharAt (s : JStr) (i : Nat) : JStr := (s.drop i).take 1

/-- A character matched by the regex class `[\w-]`. -/
def wordChar (c : Char) : Bool := c.isAlphanum || c = '_' || c = '-'

/-- Does the whole string match `#[\w-]+` ? -/
def hashAtStart : JStr → Bool
  | '#' :: rest => !rest.isEmpty && rest.all wordChar
  | _ => false

/-- The match of `/(#[\w-]+)?$/` on a string: the left-most suffix of shape
`#[\w-]+`, or the empty string (the regex always matches, possibly emptily,
at the end). -/
def extractUrlHash : JStr → JStr
  | [] => []
  | c :: rest => if hashAtStart (c :: rest) then c :: rest else extractUrlHash rest

/-- `result.slice(0, result.length - hash.length)`: the url with its trailing
`#fragment` match removed. -/
def stripHash (r : JStr) : JStr := r.take (r.length - (extractUrlHash r).length)

/-- The `defaultQueryString` block of `_prepareUrl`: strip the hash, append
the query string with `&` when the result contains `?` (JavaScript
`indexOf('?') !== -1`) and with `?` otherwise, re-append the hash. -/
def addQueryString (qs r : JStr) : JStr :=
  if qs.isEmpty then r
  else
    (if jsIndexOf '?' (stripHash r) ≠ -1 then stripHash r ++ '&' :: qs
     else stripHash r ++ '?' :: qs) ++ extractUrlHash r

/-- `Loader._prepareUrl`, translated clause by clause.  `hasProtocol` and
`hasPath` stand for the truthiness of `parseUri(url, strictMode).protocol`
and `.path`. -/
def prepareUrl (hasProtocol hasPath : Bool) (baseUrl qs url : JStr) : JStr :=
  addQueryString qs
    (if hasProtocol || !hasPath || startsWithSlashSlash url then url
     else if baseUrl.length ≠ 0 ∧ jsLastIndexOf '/' baseUrl ≠ (baseUrl.length : Int) - 1 ∧
         jsCharAt url 0 ≠ ['/'] then
       baseUrl ++ '/' :: url
     else baseUrl ++ url)

/-- The query-string step as the specification sentence words it. -/
def addQueryStringSpec (qs r : JStr) : JStr :=
  if qs = [] then r
  else
    (if '?' ∈ stripHash r then stripHash r ++ '&' :: qs
     else stripHash r ++ '?' :: qs) ++ extractUrlHash r

/-- `Loader._prepareUrl` as the specification sentence words it: unchanged for
absolute urls; otherwise `baseUrl` is prepended with a `/` separator exactly
when `baseUrl` is non-empty, does not end with `/` and the url does not start
with `/`; a non-empty default query string is appended with `&` or `?`
according to whether the result already contains `?`, any trailing fragment
staying at the end. -/
def prepareUrlSpec (hasProtocol hasPath : Bool) (baseUrl qs url : JStr) : JStr :=
  addQueryStringSpec qs
    (if hasProtocol || !hasPath || startsWithSlashSlash url then url
     else if baseUrl ≠ [] ∧ baseUrl.getLast? ≠ some '/' ∧ url.head? ≠ some '/' then
       baseUrl ++ '/' :: url
     else baseUrl ++ url)

theorem jsLastIndexOf_bounds (c : Char) (l : JStr) :
    -1 ≤ jsLastIndexOf c l ∧ jsLastIndexOf c l < l.length := by
  induction l with
  | nil => simp [jsLastIndexOf]
  | cons x xs ih =>
    obtain ⟨ih1, ih2⟩ := ih
    simp only [jsLastIndexOf, List.length_cons]
    split
    · constructor
      · omega
      · push_cast at ih2 ⊢
        omega
    · split
      · constructor
        · omega
        · push_cast
          omega
      · constructor
        · omega
        · push_cast
          omega

theorem jsLastIndexOf_eq_neg_one (c : Char) (l : JStr) :
    jsLastIndexOf c l = -1 ↔ c ∉ l := by
  induction l with
  | nil => simp [jsLastIndexOf]
  | cons x xs ih =>
    simp only [jsLastIndexOf, List.mem_cons]
    rcases jsLastIndexOf_bounds c xs with ⟨hlo, _⟩
    by_cases hr : 0 ≤ jsLastIndexOf c xs
    · have hmem : c ∈ xs := by
        by_contra hm
        rw [← ih] at hm
        omega
      simp only [if_pos hr]
      constructor
      · intro h; omega
      · intro h; exact absurd (Or.inr hmem) h
    · have hxs : jsLastIndexOf c xs = -1 := by omega
      have hnm : c ∉ xs := ih.mp hxs
      simp only [if_neg hr]
      by_cases hx : x = c
      · simp only [if_pos hx]
        constructor
        · intro h; exact absurd h (by omega)
        · intro h; exact absurd (Or.inl hx.symm) h
      · simp only [if_neg hx]
        constructor
        · intro _ h
          rcases h with h | h
          · exact hx h.symm
          · exact hnm h
        · intro _; trivial

theorem jsIndexOf_neg (c : Char) (l : JStr) :
    -1 ≤ jsIndexOf c l ∧ (jsIndexOf c l = -1 ↔ c ∉ l) := by
  induction l with
  | nil => simp [jsIndexOf]
  | cons x xs ih =>
    obtain ⟨ih1, ih2⟩ := ih
    simp only [jsIndexOf, List.mem_cons]
    by_cases hx : x = c
    · simp only [if_pos hx]
      refine ⟨by omega, ?_⟩
      constructor
      · intro h; exact absurd h (by omega)
      · intro h; exact absurd (Or.inl hx.symm) h
    · simp only [if_neg hx]
      split
      · have hmem : c ∈ xs := by
          by_contra hm
          rw [← ih2] at hm
          omega
        refine ⟨by omega, ?_⟩
        constructor
        · intro h; exact absurd h (by omega)
        · intro h; exact absurd (Or.inr hmem) h
      · have hnm : c ∉ xs := ih2.mp (by omega)
        refine ⟨by omega, ?_⟩
        constructor
        · intro _ h
          rcases h with h | h
          · exact hx h.symm
          · exact hnm h
        · intro _; rfl

theorem jsLastIndexOf_last_iff (c : Char) (l : JStr) (h : l ≠ []) :
    jsLastIndexOf c l = (l.length : Int) - 1 ↔ l.getLast? = some c := by
  induction l with
  | nil => exact absurd rfl h
  | cons x xs ih =>
    cases xs with
    | nil =>
      have hstep : jsLastIndexOf c [x] = if x = c then 0 else -1 := rfl
      rw [hstep]
      have hlen : ((List.length [x] : Nat) : Int) - 1 = 0 := by simp
      rw [hlen]
      by_cases hx : x = c
      · rw [if_pos hx]
        simp [hx]
      · rw [if_neg hx]
        simp only [List.getLast?_singleton]
        constructor
        · intro hc; exact absurd hc (by norm_num)
        · intro hc
          exact absurd (Option.some_inj.mp hc) hx
    | cons y ys =>
      have hstep : jsLastIndexOf c (x :: y :: ys) =
          if 0 ≤ jsLastIndexOf c (y :: ys) then jsLastIndexOf c (y :: ys) + 1
          else if x = c then 0 else -1 := rfl
      rcases jsLastIndexOf_bounds c (y :: ys) with ⟨hlo, hhi⟩
      rw [List.getLast?_cons_cons, hstep]
      by_cases hr : 0 ≤ jsLastIndexOf c (y :: ys)
      · rw [if_pos hr, ← ih (by simp)]
        simp only [List.length_cons]
        push_cast
        omega
      · have hxs : jsLastIndexOf c (y :: ys) = -1 := by omega
        have hnm : c ∉ y :: ys := (jsLastIndexOf_eq_neg_one c (y :: ys)).mp hxs
        rw [if_neg hr]
        have hrhs : ¬(y :: ys).getLast? = some c := by
          intro hc
          obtain ⟨hne, hc'⟩ := List.mem_getLast?_eq_getLast (by simpa using hc)
          exact hnm (hc' ▸ List.getLast_mem hne)
        have hlen : ((x :: y :: ys).length : Int) - 1 = (y :: ys).length := by
          simp only [List.length_cons]
          push_cast
          omega
        rw [hlen]
        constructor
        · intro hc
          exfalso
          have hpos : (0 : Int) < (y :: ys).length := by
            simp only [List.length_cons]
            push_cast
            omega
          by_cases hx : x = c
          · rw [if_pos hx] at hc
            omega
          · rw [if_neg hx] at hc
            omega
        · intro hc; exact absurd hc hrhs

theorem jsCharAt_zero_ne (u : JStr) : jsCharAt u 0 ≠ ['/'] ↔ u.head? ≠ some '/' := by
  cases u with
  | nil => simp [jsCharAt]
  | cons x xs => simp [jsCharAt, List.take]

theorem jsIndexOf_ne_neg_one (c : Char) (l : JStr) : jsIndexOf c l ≠ -1 ↔ c ∈ l := by
  have h := (jsIndexOf_neg c l).2
  constructor
  · intro hne
    by_contra hm
    exact hne (h.mpr hm)
  · intro hm hne
    exact (h.mp hne) hm

theorem addQueryString_spec_eq (qs r : JStr) :
    addQueryString qs r = addQueryStringSpec qs r := by
  unfold addQueryString addQueryStringSpec
  by_cases hq : qs = []
  · simp [hq]
  · rw [if_neg (by simpa using hq), if_neg hq]
    congr 1
    exact if_congr (jsIndexOf_ne_neg_one '?' (stripHash r)) rfl rfl

/-- Claim C9: `Loader._prepareUrl` behaves exactly as the specification
describes — absolute urls (protocol present, no path, or leading `//`) pass
through; otherwise `baseUrl` is prepended with a `/` separator exactly when
`baseUrl` is non-empty, does not end in `/` and the url does not start with
`/`; a non-empty `defaultQueryString` is appended with `&`/`?` according to
presence of `?`, the trailing `#fragment` being preserved after it. -/
theorem prepareUrl_spec_eq (hasProtocol hasPath : Bool) (baseUrl qs url : JStr) :
    prepareUrl hasProtocol hasPath baseUrl qs url =
      prepareUrlSpec hasProtocol hasPath baseUrl qs url := by
  have hsep : (baseUrl.length ≠ 0 ∧ jsLastIndexOf '/' baseUrl ≠ (baseUrl.length : Int) - 1 ∧
      jsCharAt url 0 ≠ ['/']) ↔
      (baseUrl ≠ [] ∧ baseUrl.getLast? ≠ some '/' ∧ url.head? ≠ some '/') := by
    constructor
    · rintro ⟨h1, h2, h3⟩
      have hne : baseUrl ≠ [] := by
        intro hb; exact h1 (by simp [hb])
      refine ⟨hne, ?_, (jsCharAt_zero_ne url).mp h3⟩
      intro hl
      exact h2 ((jsLastIndexOf_last_iff '/' baseUrl hne).mpr hl)
    · rintro ⟨h1, h2, h3⟩
      refine ⟨by simpa using h1, ?_, (jsCharAt_zero_ne url).mpr h3⟩
      intro he
      exact h2 ((jsLastIndexOf_last_iff '/' baseUrl h1).mp he)
  unfold prepareUrl prepareUrlSpec
  rw [addQueryString_spec_eq]
  congr 1
  exact if_congr Iff.rfl rfl (if_congr hsep rfl rfl)

/-- The options object passed to `Loader._add`; only the field the model needs.
`none` at the call site models JavaScript `null`/`undefined` options. -/
structure AddOptions where
  parentResource : Bool
deriving DecidableEq, Repr

/-- The observable state of a `Loader`: configuration, the `loading` flag, the
`resources` dictionary (name, prepared url — insertion order kept) and the
pending queue of resource names. -/
structure LoaderState where
  baseUrl : JStr
  defaultQueryString : JStr
  loading : Bool
  resources : List (JStr × JStr)
  queue : List JStr
deriving DecidableEq, Repr

/-- Truthiness of `this.resources[name]`. -/
def resLookup (n : JStr) (rs : List (JStr × JStr)) : Bool :=
  rs.any (fun e => decide (e.1 = n))

/-- `!options || !options.parentResource`. -/
def noParentOpt : Option AddOptions → Bool
  | none => true
  | some o => !o.parentResource

def loadingErrMsg : JStr := strL "Cannot add resources while the loader is running."

def existsErrMsg (n : JStr) : JStr :=
  strL "Resource named \"" ++ n ++ strL "\" already exists."

/-- `Loader._add` (name/url/options already normalised by `add`).  An error
carries the message together with the state at the moment of the throw, so
"no mutation before the throw" is the statement that this state equals the
input state.  The progress-chunk redistribution for a running parent resource
only touches parent bookkeeping, which is outside this state model; the
callback registration is likewise omitted. -/
def loaderAdd (hasProtocol hasPath : Bool) (st : LoaderState) (name url : JStr)
    (opts : Option AddOptions) : Except (JStr × LoaderState) LoaderState :=
  if st.loading && noParentOpt opts then
    .error (loadingErrMsg, st)
  else if resLookup name st.resources then
    .error (existsErrMsg name, st)
  else
    let prepared := prepareUrl hasProtocol hasPath st.baseUrl st.defaultQueryString url
    .ok { st with resources := st.resources ++ [(name, prepared)],
                  queue := st.queue ++ [name] }

/-- A loader that is running (no parent option) and already owns a resource
named `a`: the duplicate-name call below hits the loading check first. -/
def loaderCexSt : LoaderState :=
  { baseUrl := [], defaultQueryString := [], loading := true,
    resources := [(['a'], ['u'])], queue := [] }

/-- Counterexample for claim C8 as stated: with the loader running and no
`parentResource`, `_add` of an *already existing* name throws the
"Cannot add resources while the loader is running." error, not the
"Resource named ... already exists." one — the loading check precedes the
duplicate-name check. -/
theorem loaderAdd_precedence_cex :
    loaderAdd false true loaderCexSt ['a'] ['u'] none =
      .error (loadingErrMsg, loaderCexSt) ∧
    loadingErrMsg ≠ existsErrMsg ['a'] := by
  constructor
  · rfl
  · decide

/-- Claim C8 (amended): `_add` while loading without a `parentResource` throws
the running-loader error; `_add` with an already registered name throws the
"already exists" error provided the loading check passes; every error leaves
`resources` and the queue unchanged (the throw precedes any mutation). -/
theorem loaderAdd_spec (hasProtocol hasPath : Bool) (st : LoaderState)
    (name url : JStr) (opts : Option AddOptions) :
    (st.loading = true → noParentOpt opts = true →
      loaderAdd hasProtocol hasPath st name url opts = .error (loadingErrMsg, st)) ∧
    (¬(st.loading = true ∧ noParentOpt opts = true) →
      resLookup name st.resources = true →
      loaderAdd hasProtocol hasPath st name url opts = .error (existsErrMsg name, st)) ∧
    (∀ msg st', loaderAdd hasProtocol hasPath st name url opts = .error (msg, st') →
      st'.resources = st.resources ∧ st'.queue = st.queue) := by
  refine ⟨?_, ?_, ?_⟩
  · intro h1 h2
    unfold loaderAdd
    rw [if_pos (by rw [h1, h2]; rfl)]
  · intro h1 h2
    unfold loaderAdd
    rw [if_neg (by
      intro hc
      rcases Bool.and_eq_true_iff.mp hc with ⟨ha, hb⟩
      exact h1 ⟨ha, hb⟩), if_pos h2]
  · intro msg st'
    unfold loaderAdd
    split
    · intro h
      cases h
      exact ⟨rfl, rfl⟩
    · split
      · intro h
        cases h
        exact ⟨rfl, rfl⟩
      · intro h
        cases h

/-- Witness for claim C8's theorem: both error branches and the
no-mutation consequence at concrete inputs. -/
theorem loaderAdd_spec_w :
    loaderAdd false true loaderCexSt ['b'] ['u'] none = .error (loadingErrMsg, loaderCexSt) ∧
    loaderAdd false true { loaderCexSt with loading := false } ['a'] ['u'] none =
      .error (existsErrMsg ['a'], { loaderCexSt with loading := false }) := by
  constructor
  · exact (loaderAdd_spec false true loaderCexSt ['b'] ['u'] none).1 (by decide) (by decide)
  · exact (loaderAdd_spec false true { loaderCexSt with loading := false }
      ['a'] ['u'] none).2.1 (by decide) (by decide)

/-- JavaScript `String.replace` with a plain-string pattern: replaces the
first occurrence only. -/
def replaceFirst (pat rep : JStr) : JStr → JStr
  | [] => []
  | c :: cs =>
    if pat.isPrefixOf (c :: cs) then rep ++ (c :: cs).drop pat.length
    else c :: replaceFirst pat rep cs

/-- The parts of a `LoaderResource` that `SpritesheetLoader.use` reads.
`hasData`, `hasFrames` model JavaScript truthiness of `resource.data` and
`resource.data.frames`; `multiPacks` is `data.meta.related_multi_packs` when
it is an array (entries: `some s` for string entries, `none` otherwise). -/
structure SSResource where
  name : JStr
  url : JStr
  hasData : Bool
  isJsonType : Bool
  hasFrames : Bool
  multiPacks : Option (List (Option JStr))
  metaImage : JStr
  isDataUrl : Bool
deriving DecidableEq, Repr

def imageSuffix : JStr := strL "_image"

def jsonExt : JStr := strL ".json"

/-- `SpritesheetLoader.getResourcePath`.  `resolve` abstracts `url.resolve`
from `@pixi/utils` (not among the sources at hand). -/
def getResourcePath (resolve : JStr → JStr → JStr) (res : SSResource)
    (baseUrl : JStr) : JStr :=
  if res.isDataUrl then res.metaImage
  else resolve (replaceFirst baseUrl [] res.url) res.metaImage

/-- The skip condition of `SpritesheetLoader.use`: no data, not JSON, no
`frames` field, or the `<name>_image` resource already registered. -/
def ssGuard (rs : List (JStr × JStr)) (res : SSResource) : Bool :=
  !res.hasData || !res.isJsonType || !res.hasFrames ||
    resLookup (res.name ++ imageSuffix) rs

/-- The `related_multi_packs` loop: non-string entries are skipped; an entry
whose stripped name or resolved url is already registered (also by an earlier
iteration) is skipped; otherwise it is added to the loader (`prep` abstracts
`_prepareUrl`, applied by `Loader._add`; `fmtNorm` abstracts
`url.format(url.parse(·))`).  Returns the updated resource dictionary and the
list of (name, url) pairs passed to `loader.add`. -/
def procMulti (resolve : JStr → JStr → JStr) (fmtNorm prep : JStr → JStr)
    (relSrc : JStr) (rs : List (JStr × JStr)) :
    List (Option JStr) → List (JStr × JStr) × List (JStr × JStr)
  | [] => (rs, [])
  | none :: rest => procMulti resolve fmtNorm prep relSrc rs rest
  | some s :: rest =>
    if resLookup (replaceFirst jsonExt [] s) rs ||
        rs.any (fun r => decide (fmtNorm r.2 = resolve relSrc s)) then
      procMulti resolve fmtNorm prep relSrc rs rest
    else
      ((procMulti resolve fmtNorm prep relSrc
          (rs ++ [(replaceFirst jsonExt [] s, prep (resolve relSrc s))]) rest).1,
        (replaceFirst jsonExt [] s, resolve relSrc s) ::
          (procMulti resolve fmtNorm prep relSrc
            (rs ++ [(replaceFirst jsonExt [] s, prep (resolve relSrc s))]) rest).2)

/-- Result of running the middleware: `nextNow` is true when `next()` was
called immediately (nothing enqueued); `added` lists the (name, url) pairs
passed to `loader.add` in order; `resources` is the updated dictionary. -/
structure SSUseOut where
  nextNow : Bool
  added : List (JStr × JStr)
  resources : List (JStr × JStr)
deriving DecidableEq, Repr

/-- `SpritesheetLoader.use`: skip (calling `next()`) when the guard holds,
else enqueue the qualifying multi-pack entries and then the `<name>_image`
atlas image resource. -/
def spritesheetUse (resolve : JStr → JStr → JStr) (fmtNorm prep : JStr → JStr)
    (baseUrl : JStr) (rs : List (JStr × JStr)) (res : SSResource) : SSUseOut :=
  if ssGuard rs res then ⟨true, [], rs⟩
  else
    let st1 :=
      match res.multiPacks with
      | some items =>
        procMulti resolve fmtNorm prep (replaceFirst baseUrl [] res.url) rs items
      | none => (rs, [])
    ⟨false,
      st1.2 ++ [(res.name ++ imageSuffix, getResourcePath resolve res baseUrl)],
      st1.1 ++ [(res.name ++ imageSuffix, prep (getResourcePath resolve res baseUrl))]⟩

theorem resLookup_mono (n : JStr) (rs rs' : List (JStr × JStr))
    (hsub : ∀ e ∈ rs, e ∈ rs') (h : resLookup n rs' = false) :
    resLookup n rs = false := by
  by_contra hc
  rw [Bool.not_eq_false] at hc
  unfold resLookup at hc h
  rw [List.any_eq_true] at hc
  obtain ⟨e, he, hd⟩ := hc
  have : rs'.any (fun e => decide (e.1 = n)) = true :=
    List.any_eq_true.mpr ⟨e, hsub e he, hd⟩
  rw [h] at this
  cases this

theorem procMulti_sound (resolve : JStr → JStr → JStr) (fmtNorm prep : JStr → JStr)
    (relSrc : JStr) (items : List (Option JStr)) :
    ∀ (rs0 rs : List (JStr × JStr)), (∀ e ∈ rs0, e ∈ rs) →
    ∀ p ∈ (procMulti resolve fmtNorm prep relSrc rs items).2,
      ∃ s, some s ∈ items ∧ p.1 = replaceFirst jsonExt [] s ∧
        p.2 = resolve relSrc s ∧ resLookup p.1 rs0 = false ∧
        ∀ r ∈ rs0, fmtNorm r.2 ≠ p.2 := by
  induction items with
  | nil =>
    intro rs0 rs _ p hp
    simp [procMulti] at hp
  | cons it rest ih =>
    intro rs0 rs hsub p hp
    cases it with
    | none =>
      obtain ⟨s, hs, h⟩ := ih rs0 rs hsub p hp
      exact ⟨s, List.mem_cons_of_mem _ hs, h⟩
    | some s =>
      rw [procMulti] at hp
      split at hp
      · obtain ⟨s', hs', h⟩ := ih rs0 rs hsub p hp
        exact ⟨s', List.mem_cons_of_mem _ hs', h⟩
      · rename_i hcond
        rw [Bool.or_eq_true, not_or] at hcond
        obtain ⟨hlook, hany⟩ := hcond
        rcases List.mem_cons.mp hp with hp | hp
        · subst hp
          refine ⟨s, List.mem_cons_self _ _, rfl, rfl, ?_, ?_⟩
          · exact resLookup_mono _ rs0 rs hsub (Bool.not_eq_true _ ▸ Bool.of_not_eq_true hlook)
          · intro r hr hequ
            apply hany
            exact List.any_eq_true.mpr ⟨r, hsub r hr, by simpa using hequ⟩
        · obtain ⟨s', hs', h⟩ := ih rs0
            (rs ++ [(replaceFirst jsonExt [] s, prep (resolve relSrc s))])
            (fun e he => List.mem_append_left _ (hsub e he)) p hp
          exact ⟨s', List.mem_cons_of_mem _ hs', h⟩

/-- Completeness of the `related_multi_packs` loop: a string entry whose
stripped name is not registered and whose resolved url matches no registered
resource's normalized url — both checked against the resource dictionary as
it stands when the entry's iteration runs, i.e. after the additions of the
earlier entries — is added to the loader. -/
theorem procMulti_complete (resolve : JStr → JStr → JStr) (fmtNorm prep : JStr → JStr)
    (relSrc : JStr) (pre : List (Option JStr)) :
    ∀ (post : List (Option JStr)) (s : JStr) (rs : List (JStr × JStr)),
    resLookup (replaceFirst jsonExt [] s)
      (procMulti resolve fmtNorm prep relSrc rs pre).1 = false →
    (procMulti resolve fmtNorm prep relSrc rs pre).1.any
      (fun r => decide (fmtNorm r.2 = resolve relSrc s)) = false →
    (replaceFirst jsonExt [] s, resolve relSrc s) ∈
      (procMulti resolve fmtNorm prep relSrc rs (pre ++ some s :: post)).2 := by
  induction pre with
  | nil =>
    intro post s rs h1 h2
    have h1a : resLookup (replaceFirst jsonExt [] s) rs = false := h1
    have h2a : rs.any (fun r => decide (fmtNorm r.2 = resolve relSrc s)) = false := h2
    have hc : (resLookup (replaceFirst jsonExt [] s) rs ||
        rs.any (fun r => decide (fmtNorm r.2 = resolve relSrc s))) = false := by
      rw [h1a, h2a]
      rfl
    rw [List.nil_append, procMulti, if_neg (by rw [hc]; exact Bool.false_ne_true)]
    exact List.mem_cons_self _ _
  | cons it rest ih =>
    intro post s rs h1 h2
    cases it with
    | none =>
      rw [List.cons_append]
      exact ih post s rs h1 h2
    | some t =>
      rw [List.cons_append]
      by_cases hc : (resLookup (replaceFirst jsonExt [] t) rs ||
          rs.any (fun r => decide (fmtNorm r.2 = resolve relSrc t))) = true
      · have e1 : procMulti resolve fmtNorm prep relSrc rs
            (some t :: (rest ++ some s :: post)) =
            procMulti resolve fmtNorm prep relSrc rs (rest ++ some s :: post) := by
          rw [procMulti, if_pos hc]
        have e2 : procMulti resolve fmtNorm prep relSrc rs (some t :: rest) =
            procMulti resolve fmtNorm prep relSrc rs rest := by
          rw [procMulti, if_pos hc]
        rw [e1]
        rw [e2] at h1 h2
        exact ih post s rs h1 h2
      · have e1 : procMulti resolve fmtNorm prep relSrc rs
            (some t :: (rest ++ some s :: post)) =
            ((procMulti resolve fmtNorm prep relSrc
                (rs ++ [(replaceFirst jsonExt [] t, prep (resolve relSrc t))])
                (rest ++ some s :: post)).1,
              (replaceFirst jsonExt [] t, resolve relSrc t) ::
                (procMulti resolve fmtNorm prep relSrc
                  (rs ++ [(replaceFirst jsonExt [] t, prep (resolve relSrc t))])
                  (rest ++ some s :: post)).2) := by
          rw [procMulti, if_neg hc]
        have e2 : procMulti resolve fmtNorm prep relSrc rs (some t :: rest) =
            ((procMulti resolve fmtNorm prep relSrc
                (rs ++ [(replaceFirst jsonExt [] t, prep (resolve relSrc t))]) rest).1,
              (replaceFirst jsonExt [] t, resolve relSrc t) ::
                (procMulti resolve fmtNorm prep relSrc
                  (rs ++ [(replaceFirst jsonExt [] t, prep (resolve relSrc t))]) rest).2) := by
          rw [procMulti, if_neg hc]
        rw [e1]
        rw [e2] at h1 h2
        dsimp only at h1 h2 ⊢
        exact List.mem_cons_of_mem _
          (ih post s (rs ++ [(replaceFirst jsonExt [] t, prep (resolve relSrc t))]) h1 h2)

/-- Claim C10: `SpritesheetLoader.use` calls `next()` and adds nothing exactly
when the resource has no data, is not JSON, has no `frames`, or the
`<name>_image` resource already exists; otherwise it enqueues the atlas image
last, preceded only by string-valued `related_multi_packs` entries whose
stripped name and resolved url were not already registered (soundness), and
every string entry whose stripped name and resolved url are not registered
when its iteration runs — against the dictionary including the earlier
entries' additions — is enqueued (completeness). -/
theorem spritesheetUse_spec (resolve : JStr → JStr → JStr) (fmtNorm prep : JStr → JStr)
    (baseUrl : JStr) (rs : List (JStr × JStr)) (res : SSResource) :
    (spritesheetUse resolve fmtNorm prep baseUrl rs res).nextNow = ssGuard rs res ∧
    (ssGuard rs res = true →
      (spritesheetUse resolve fmtNorm prep baseUrl rs res).added = [] ∧
      (spritesheetUse resolve fmtNorm prep baseUrl rs res).resources = rs) ∧
    (ssGuard rs res = false →
      ((spritesheetUse resolve fmtNorm prep baseUrl rs res).added.getLast? =
        some (res.name ++ imageSuffix, getResourcePath resolve res baseUrl)) ∧
      (∀ p ∈ (spritesheetUse resolve fmtNorm prep baseUrl rs res).added.dropLast,
        ∃ items s, res.multiPacks = some items ∧ some s ∈ items ∧
          p.1 = replaceFirst jsonExt [] s ∧
          p.2 = resolve (replaceFirst baseUrl [] res.url) s ∧
          resLookup p.1 rs = false ∧ ∀ r ∈ rs, fmtNorm r.2 ≠ p.2) ∧
      (∀ items pre s post, res.multiPacks = some items →
        items = pre ++ some s :: post →
        resLookup (replaceFirst jsonExt [] s)
          (procMulti resolve fmtNorm prep (replaceFirst baseUrl [] res.url)
            rs pre).1 = false →
        (procMulti resolve fmtNorm prep (replaceFirst baseUrl [] res.url)
            rs pre).1.any
          (fun r => decide
            (fmtNorm r.2 = resolve (replaceFirst baseUrl [] res.url) s)) = false →
        (replaceFirst jsonExt [] s, resolve (replaceFirst baseUrl [] res.url) s) ∈
          (spritesheetUse resolve fmtNorm prep baseUrl rs res).added)) ∧
    (ssGuard rs res = true ↔
      (res.hasData = false ∨ res.isJsonType = false ∨ res.hasFrames = false ∨
        resLookup (res.name ++ imageSuffix) rs = true)) := by
  refine ⟨?_, ?_, ?_, ?_⟩
  · unfold spritesheetUse
    by_cases hg : ssGuard rs res = true
    · rw [if_pos hg, hg]
    · rw [if_neg hg]
      rw [Bool.not_eq_true] at hg
      exact hg.symm
  · intro hg
    unfold spritesheetUse
    rw [if_pos hg]
    exact ⟨rfl, rfl⟩
  · intro hg
    unfold spritesheetUse
    rw [if_neg (by rw [hg]; exact Bool.false_ne_true)]
    refine ⟨List.getLast?_concat _, ?_, ?_⟩
    · intro p hp
      rw [List.dropLast_concat] at hp
      cases hmp : res.multiPacks with
      | none =>
        rw [hmp] at hp
        simp at hp
      | some items =>
        rw [hmp] at hp
        obtain ⟨s, hs, h1, h2, h3, h4⟩ :=
          procMulti_sound resolve fmtNorm prep (replaceFirst baseUrl [] res.url)
            items rs rs (fun e he => he) p hp
        exact ⟨items, s, rfl, hs, h1, h2, h3, h4⟩
    · intro items pre s post hmp hitems h1 h2
      refine List.mem_append_left _ ?_
      have hmem := procMulti_complete resolve fmtNorm prep
        (replaceFirst baseUrl [] res.url) pre post s rs h1 h2
      rw [hmp, hitems]
      exact hmem
  · unfold ssGuard
    simp only [Bool.or_eq_true, Bool.not_eq_true']
    tauto

/-- A concrete spritesheet resource with one fresh multi-pack entry, used to
exercise `spritesheetUse_spec`. -/
def ssResEx : SSResource :=
  { name := ['a'], url := strL "a.json", hasData := true, isJsonType := true,
    hasFrames := true, multiPacks := some [some (strL "m.json")],
    metaImage := strL "a.png", isDataUrl := false }

/-- Witness for claim C10's theorem at a concrete input: the atlas image is
enqueued last, and the fresh multi-pack entry is enqueued. -/
theorem spritesheetUse_spec_w :
    ((spritesheetUse (fun _ s => s) id id [] [] ssResEx).added.getLast? =
      some (ssResEx.name ++ imageSuffix, getResourcePath (fun _ s => s) ssResEx [])) ∧
    (replaceFirst jsonExt [] (strL "m.json"), strL "m.json") ∈
      (spritesheetUse (fun _ s => s) id id [] [] ssResEx).added :=
  ⟨((spritesheetUse_spec (fun _ s => s) id id [] [] ssResEx).2.2.1 (by decide)).1,
   ((spritesheetUse_spec (fun _ s => s) id id [] [] ssResEx).2.2.1 (by decide)).2.2
     [some (strL "m.json")] [] (strL "m.json") [] rfl rfl (by decide) (by decide)⟩

/-!
Part 2: the geometry batching pipeline, modelled from the specification
(sections 3 and 4).  The code this describes is not among the sources at
hand, so every definition below is a model of the specification text.
Tessellation ("build"/"triangulate", section 6) is an external capability:
its output for a shape is carried as data on the shape record.  Real-number
vertex arithmetic is modelled over exact integers; none of the claims
depends on the numeric values, only on how the pipeline moves them.
-/

/-- Modelled from the spec: index buffers are 16- or 32-bit wide. -/
inductive IndexWidth
  | w16
  | w32
deriving DecidableEq, Repr

/-- Modelled from the spec (section 3, ShapeRecord): a fill or line style —
underlying texture identity, a combined color+alpha key, the "native line"
flag, an optional UV matrix and the texture frame data the UV mapper reads.
A style that is not visible is represented as `none` at its use site. -/
structure GStyle where
  texture : Nat
  colorKey : Nat
  native : Bool
  uvMat : Option Nat
  frameW : Int
  frameH : Int
  baseW : Int
  baseH : Int
  frameOffU : Int
  frameOffV : Int
deriving DecidableEq, Repr

/-- Modelled from the spec (section 4.2, Style Comparator): `mergeable(a, b)`
is false if either style is absent, else true exactly when both reference the
identical underlying texture resource, encode an identical combined
color+alpha key and have the same native-line flag. -/
def mergeable : Option GStyle → Option GStyle → Bool
  | some a, some b =>
    a.texture == b.texture && a.colorKey == b.colorKey && a.native == b.native
  | _, _ => false

/-- Output of the external tessellation capability for one triangulation
call: the vertex positions it appends and the indices it appends (local to
the appended vertex range). -/
structure TessData where
  pts : List (Int × Int)
  idx : List Nat
deriving DecidableEq, Repr

/-- Modelled from the spec: a hole record; holes apply only to fills (the
fill triangulation of the parent already accounts for them) but carry line
geometry of their own, built under the parent's line style. -/
structure HoleRecord where
  lineTess : TessData
deriving DecidableEq, Repr

/-- An affine transform (a b c d tx ty). -/
structure Mat2 where
  a : Int
  b : Int
  c : Int
  d : Int
  tx : Int
  ty : Int
deriving DecidableEq, Repr

def applyMat (m : Mat2) (p : Int × Int) : Int × Int :=
  (m.a * p.1 + m.c * p.2 + m.tx, m.b * p.1 + m.d * p.2 + m.ty)

def applyOptMat (m : Option Mat2) (p : Int × Int) : Int × Int :=
  match m with
  | none => p
  | some m => applyMat m p

/-- Modelled from the spec (section 3, ShapeRecord): one drawn shape with its
two optional (= visible) styles, the tessellation output for its fill (holes
included) and its line, its hole records and an optional transform. -/
structure ShapeRecord where
  fillStyle : Option GStyle
  lineStyle : Option GStyle
  fillTess : TessData
  lineTess : TessData
  holes : List HoleRecord
  transform : Option Mat2
deriving DecidableEq, Repr

/-- Apply the shape transform in place to a tessellation point list
(spec section 4.1 step 1). -/
def txTess (m : Option Mat2) (t : TessData) : TessData :=
  ⟨t.pts.map (applyOptMat m), t.idx⟩

/-- Concatenate two tessellation outputs, offsetting the second index block
by the first point count. -/
def combineTess (a b : TessData) : TessData :=
  ⟨a.pts ++ b.pts, a.idx ++ b.idx.map (· + a.pts.length)⟩

/-- The line geometry of a shape: the line builder is applied to the shape
and independently to each hole (spec section 4.1 step 3b). -/
def lineTessOf (sh : ShapeRecord) : TessData :=
  (sh.holes.map HoleRecord.lineTess).foldl combineTess sh.lineTess

def listMinI : List Int → Int
  | [] => 0
  | x :: xs => xs.foldl min x

/-- Modelled from the spec (section 4.3, UV Mapper), one vertex: apply the
style's optional UV matrix, then normalise by the frame size (real division
modelled as exact integer division). -/
def uvOne (st : GStyle) (p : Int × Int) : Int × Int :=
  ((st.uvMat.elim p.1 (fun k => (k : Int) * p.1)) / st.frameW,
   (st.uvMat.elim p.2 (fun k => (k : Int) * p.2)) / st.frameH)

/-- Modelled from the spec (section 4.3): map a freshly appended vertex range
to UVs; for an atlas sub-frame texture apply the adjustment pass driven by
the minimum wrap cell of the just-written UVs. -/
def uvRange (st : GStyle) (pts : List (Int × Int)) : List (Int × Int) :=
  if st.frameW = st.baseW ∧ st.frameH = st.baseH then pts.map (uvOne st)
  else
    ((pts.map (uvOne st)).map (fun q =>
      ((q.1 + st.frameOffU - listMinI ((pts.map (uvOne st)).map Prod.fst)) * st.frameW / st.baseW,
       (q.2 + st.frameOffV - listMinI ((pts.map (uvOne st)).map Prod.snd)) * st.frameH / st.baseH)))

/-- An open batch part: `begin()` has recorded the style and the start
offsets (spec section 3, BatchPart lifecycle). -/
structure OpenPart where
  style : GStyle
  attribStart : Nat
  indexStart : Nat
deriving DecidableEq, Repr

/-- Modelled from the spec (section 3): a closed batch part — a contiguous
span over the shared index/vertex arrays sharing one style. -/
structure BatchPart where
  style : GStyle
  attribStart : Nat
  attribEnd : Nat
  indexStart : Nat
  indexEnd : Nat
deriving DecidableEq, Repr

/-- `end()`: close an open part at the given end offsets. -/
def closeAt (op : OpenPart) (aEnd iEnd : Nat) : BatchPart :=
  ⟨op.style, op.attribStart, aEnd, op.indexStart, iEnd⟩

def partAttribSize (p : BatchPart) : Nat := p.attribEnd - p.attribStart

def partIndexSize (p : BatchPart) : Nat := p.indexEnd - p.indexStart

/-- The accumulator of the batch-part builder: the shared arrays, the closed
parts and the currently open part. -/
structure BuildAcc where
  verts : List (Int × Int)
  uvs : List (Int × Int)
  indices : List Nat
  batches : List BatchPart
  openPart : Option OpenPart
deriving DecidableEq, Repr

/-- Modelled from the spec (section 4.1 steps 3d-3e): after a non-degenerate
append at offsets `(aBase, iBase)`, close the open part when the new style is
not mergeable with it, then open a part at those offsets if none is open.
Returns the parts to close and the resulting open part. -/
def styleDelta (aBase iBase : Nat) (op : Option OpenPart) (st : GStyle) :
    List BatchPart × Option OpenPart :=
  match op with
  | some o =>
    if mergeable (some o.style) (some st) then ([], some o)
    else ([closeAt o aBase iBase], some ⟨st, aBase, iBase⟩)
  | none => ([], some ⟨st, aBase, iBase⟩)

/-- Modelled from the spec (section 4.1 step 3): process one style usage of a
shape — triangulate (append positions and offset indices), skip part
management if nothing was appended (degenerate shape), else manage the open
part and append the UVs of the new range. -/
def processStyle (acc : BuildAcc) (sty : Option GStyle) (td : TessData) : BuildAcc :=
  match sty with
  | none => acc
  | some st =>
    if td.pts.isEmpty then
      { acc with verts := acc.verts ++ td.pts,
                 indices := acc.indices ++ td.idx.map (· + acc.verts.length) }
    else
      { verts := acc.verts ++ td.pts,
        uvs := acc.uvs ++ uvRange st td.pts,
        indices := acc.indices ++ td.idx.map (· + acc.verts.length),
        batches := acc.batches ++
          (styleDelta acc.verts.length acc.indices.length acc.openPart st).1,
        openPart := (styleDelta acc.verts.length acc.indices.length acc.openPart st).2 }

/-- Modelled from the spec (section 4.1 steps 1-3): one shape — transform its
point lists in place, then fill (if visible) then line (if visible), in that
fixed order. -/
def processShape (acc : BuildAcc) (sh : ShapeRecord) : BuildAcc :=
  processStyle (processStyle acc sh.fillStyle (txTess sh.transform sh.fillTess))
    sh.lineStyle (txTess sh.transform (lineTessOf sh))

def processShapes (acc : BuildAcc) (shapes : List ShapeRecord) : BuildAcc :=
  shapes.foldl processShape acc

/-- Spec section 4.1 step 4: close any still-open batch part. -/
def closeOpen (acc : BuildAcc) : BuildAcc :=
  match acc.openPart with
  | none => acc
  | some op =>
    { acc with
      batches := acc.batches ++ [closeAt op acc.verts.length acc.indices.length],
      openPart := none }

/-- Tessellation-work units for one shape: one "build" step for the shape,
plus the hole-processing step for each hole when a style is visible
(spec section 4.1 steps 1-2). -/
def shapeCost (sh : ShapeRecord) : Nat :=
  1 + (if sh.fillStyle.isSome || sh.lineStyle.isSome then sh.holes.length else 0)

/-- Modelled from the spec (section 3, DrawCall): one GPU submission — bound
base-textures in slot order, primitive type (`native = true` for LINES),
start offset and size over the final index buffer. -/
structure DrawCall where
  texArray : List Nat
  native : Bool
  start : Nat
  size : Nat
deriving DecidableEq, Repr

/-- The running state of the draw-call compiler (spec section 4.5): output
calls, the in-progress call, the distinct-texture count of that call, the
current global batch tick, the per-texture (last tick, last slot) pairs
stored on the texture objects, the running index cursor, the current
primitive flag and the per-vertex color / texture-unit-id arrays written
along the way. -/
structure CompState where
  done : List DrawCall
  cur : DrawCall
  count : Nat
  tick : Nat
  texTick : Nat → Nat
  texSlot : Nat → Nat
  index : Nat
  curNative : Bool
  colors : List Nat
  texIds : List Nat

/-- Modelled from the spec (section 4.5): on a primitive-type change, force
the texture budget closed (count := limit) and advance the tick. -/
def tickStep (limit : Nat) (s : CompState) (nat : Bool) : CompState :=
  if nat != s.curNative then { s with curNative := nat, count := limit, tick := s.tick + 1 }
  else s

/-- Modelled from the spec (section 4.5): texture handling for one part.  A
texture marked with the current tick reuses its recorded slot.  Otherwise,
when the slot budget is exhausted (hard `≥`), the current call is closed
(pushed when non-empty, reset in place otherwise) and a fresh one opened at
the current index cursor with the slot counter reset and the tick advanced;
then the texture is bound to the next free slot and marked. -/
def texBind (limit : Nat) (s : CompState) (t : Nat) : CompState × Nat :=
  if s.texTick t = s.tick then (s, s.texSlot t)
  else
    (fun s' =>
      ({ s' with
          cur := { s'.cur with texArray := s'.cur.texArray ++ [t] },
          texTick := fun x => if x = t then s'.tick else s'.texTick x,
          texSlot := fun x => if x = t then s'.count else s'.texSlot x,
          count := s'.count + 1 }, s'.count))
    (if limit ≤ s.count then
      { s with
          done := if 0 < s.cur.size then s.done ++ [s.cur] else s.done,
          cur := ⟨[], s.curNative, s.index, 0⟩,
          count := 0, tick := s.tick + 1 }
    else s)

/-- Modelled from the spec (section 4.5): accumulate the part's index span
into the current call and cursor, and write the part's per-vertex packed
color and texture-unit id over its attribute range. -/
def spanStep (s : CompState) (slot : Nat) (p : BatchPart) : CompState :=
  { s with
      cur := { s.cur with size := s.cur.size + partIndexSize p },
      index := s.index + partIndexSize p,
      colors := s.colors ++ List.replicate (partAttribSize p) p.style.colorKey,
      texIds := s.texIds ++ List.replicate (partAttribSize p) slot }

/-- One part of the greedy single pass (spec section 4.5). -/
def compStep (limit : Nat) (s : CompState) (p : BatchPart) : CompState :=
  spanStep (texBind limit (tickStep limit s p.style.native) p.style.texture).1
    (texBind limit (tickStep limit s p.style.native) p.style.texture).2 p

/-- The compiler's initial state: the global tick is advanced past `tick0`
(all texture marks are at most `tick0`, so none is stale-valid). -/
def compInit (tick0 : Nat) (tt ts : Nat → Nat) : CompState :=
  ⟨[], ⟨[], false, 0, 0⟩, 0, tick0 + 1, tt, ts, 0, false, [], []⟩

/-- Modelled from the spec (section 4.5, Draw-Call Compiler): the greedy
single pass over ordered batch parts; the final non-empty call is flushed.
Returns the draw calls and the per-vertex color and texture-id arrays. -/
def buildDrawCalls (limit tick0 : Nat) (tt ts : Nat → Nat) (parts : List BatchPart) :
    List DrawCall × List Nat × List Nat :=
  (fun s => (s.done ++ (if 0 < s.cur.size then [s.cur] else []), s.colors, s.texIds))
    (parts.foldl (compStep limit) (compInit tick0 tt ts))

/-- Modelled from the spec (section 4.6, Attribute Packer): interleave
position, UV, packed color and texture-unit id per vertex (the 24-byte
stride layout is modelled as a tuple per vertex). -/
def packAttribs (verts uvs : List (Int × Int)) (colors texIds : List Nat) :
    List ((Int × Int) × (Int × Int) × Nat × Nat) :=
  verts.zip (uvs.zip (colors.zip texIds))

/-- Per-vertex colors when packing a directly batchable geometry (no draw
calls): each batch part contributes its style's color over its attribute
range. -/
def directColors (bs : List BatchPart) : List Nat :=
  (bs.map (fun b => List.replicate (partAttribSize b) b.style.colorKey)).flatten

/-- Modelled from the spec (section 3, data model): a geometry — its shape
records, the shared per-vertex arrays, its batch parts, the dirty counters,
the incremental cursor, the batchability flag, the compiled draw calls, the
index-width class and the packed attribute buffer, plus the instrumentation
counter of tessellation invocations (spec section 8, incrementality). -/
structure Geometry where
  shapes : List ShapeRecord
  verts : List (Int × Int)
  uvs : List (Int × Int)
  indices : List Nat
  batches : List BatchPart
  dirty : Int
  cacheDirty : Int
  batchDirty : Int
  shapeIndex : Nat
  batchable : Bool
  indexWidth : IndexWidth
  drawCalls : List DrawCall
  colors : List Nat
  texIds : List Nat
  packed : List ((Int × Int) × (Int × Int) × Nat × Nat)
  tessCount : Nat
deriving DecidableEq, Repr

/-- The builder accumulator seeded from a geometry (no open part across
rebuild runs). -/
def accOf (g : Geometry) : BuildAcc :=
  ⟨g.verts, g.uvs, g.indices, g.batches, none⟩

/-- The state updates shared by every completing rebuild: store the rebuilt
arrays and parts, stamp the cache, advance the resume cursor and the batch
generation, account the tessellation work done. -/
def rebuildCore (g : Geometry) (acc : BuildAcc) : Geometry :=
  { g with
      cacheDirty := g.dirty,
      verts := acc.verts, uvs := acc.uvs, indices := acc.indices,
      batches := acc.batches,
      shapeIndex := g.shapes.length,
      tessCount := g.tessCount + ((g.shapes.drop g.shapeIndex).map shapeCost).sum,
      batchDirty := g.batchDirty + 1 }

/-- Spec section 4.1 step 5: choose the index width — 16-bit unless the
total vertex count exceeds 65535. -/
def widthSet (g1 : Geometry) (v : Nat) : Geometry :=
  { g1 with indexWidth := if 65535 < v then IndexWidth.w32 else IndexWidth.w16 }

/-- Spec section 4.1 steps 4-6 after the shape loop: zero batch parts mark
the geometry batchable and stop; otherwise choose the index width, classify
batchability (section 4.4) and either pack directly with no draw calls or
compile draw calls (section 4.5) and pack. -/
def finishBatches (limit thr : Nat) (g : Geometry) (acc : BuildAcc) : Geometry :=
  if acc.batches.isEmpty then { rebuildCore g acc with batchable := true }
  else if acc.verts.length ≤ thr ∧ (∀ b ∈ acc.batches, b.style.native = false) ∧
      acc.verts.length ≤ 65535 then
    { widthSet (rebuildCore g acc) acc.verts.length with
        batchable := true, drawCalls := [],
        colors := directColors acc.batches,
        texIds := List.replicate acc.verts.length 0,
        packed := packAttribs acc.verts acc.uvs (directColors acc.batches)
          (List.replicate acc.verts.length 0) }
  else
    { widthSet (rebuildCore g acc) acc.verts.length with
        batchable := false,
        drawCalls := (buildDrawCalls limit 0 (fun _ => 0) (fun _ => 0) acc.batches).1,
        colors := (buildDrawCalls limit 0 (fun _ => 0) (fun _ => 0) acc.batches).2.1,
        texIds := (buildDrawCalls limit 0 (fun _ => 0) (fun _ => 0) acc.batches).2.2,
        packed := packAttribs acc.verts acc.uvs
          (buildDrawCalls limit 0 (fun _ => 0) (fun _ => 0) acc.batches).2.1
          (buildDrawCalls limit 0 (fun _ => 0) (fun _ => 0) acc.batches).2.2 }

/-- Modelled from the spec (section 4.1, Batch-Part Builder): the rebuild
entry point.  No shapes: trivially batchable.  `dirty == cacheDirty`: no-op.
Otherwise build batch parts from `shapeIndex` on, close the open part, stop
batchable when no part resulted, choose the index width (16-bit unless the
vertex count exceeds 65535), classify batchability (section 4.4: vertex
count at most the threshold, no native-line part, vertex count at most
65535) and either pack directly with no draw calls or compile draw calls
(section 4.5) and pack. -/
def updateBatches (limit thr : Nat) (g : Geometry) : Geometry :=
  if g.shapes.isEmpty then { g with batchable := true }
  else if g.dirty = g.cacheDirty then g
  else finishBatches limit thr g (closeOpen (processShapes (accOf g) (g.shapes.drop g.shapeIndex)))

/-- A fresh geometry over a shape list (dirty 0, cache stamp -1 as in the
source's initial values, everything else empty). -/
def freshGeometry (shapes : List ShapeRecord) : Geometry :=
  { shapes := shapes, verts := [], uvs := [], indices := [], batches := [],
    dirty := 0, cacheDirty := -1, batchDirty := 0, shapeIndex := 0,
    batchable := false, indexWidth := IndexWidth.w16, drawCalls := [],
    colors := [], texIds := [], packed := [], tessCount := 0 }

/-- Add one drawn shape (bumps the dirty counter, leaves the resume cursor). -/
def addShape (g : Geometry) (sh : ShapeRecord) : Geometry :=
  { g with shapes := g.shapes ++ [sh], dirty := g.dirty + 1 }

/-- Modelled from the spec (section 7): adding a hole attaches it to the last
shape; before any shape exists this returns the null/no-op result `none`
instead of throwing. -/
def addHole (g : Geometry) (h : HoleRecord) : Option Geometry :=
  match g.shapes.getLast? with
  | none => none
  | some l =>
    some { g with
            shapes := g.shapes.dropLast ++ [{ l with holes := l.holes ++ [h] }],
            dirty := g.dirty + 1 }

theorem processStyle_none (acc : BuildAcc) (td : TessData) :
    processStyle acc none td = acc := rfl

theorem processStyle_some (acc : BuildAcc) (st : GStyle) (td : TessData)
    (h : td.pts ≠ []) :
    processStyle acc (some st) td =
      { verts := acc.verts ++ td.pts,
        uvs := acc.uvs ++ uvRange st td.pts,
        indices := acc.indices ++ td.idx.map (· + acc.verts.length),
        batches := acc.batches ++
          (styleDelta acc.verts.length acc.indices.length acc.openPart st).1,
        openPart := (styleDelta acc.verts.length acc.indices.length acc.openPart st).2 } := by
  simp only [processStyle]
  rw [if_neg (by simpa using h)]

theorem processStyle_degenerate (acc : BuildAcc) (st : GStyle) (td : TessData)
    (h : td.pts = []) :
    processStyle acc (some st) td =
      { acc with indices := acc.indices ++ td.idx.map (· + acc.verts.length) } := by
  simp only [processStyle]
  rw [if_pos (by simp [h])]
  rw [h, List.append_nil]

/-- Claim C7: the core raises no user-visible error — a degenerate style
usage (zero appended vertices) is skipped without touching the batch parts
or the open part, and adding a hole before any shape exists yields the
null/no-op result instead of throwing (all pipeline operations are total
functions of the state). -/
theorem error_free_core :
    (∀ (g : Geometry) (h : HoleRecord), g.shapes = [] → addHole g h = none) ∧
    (∀ (acc : BuildAcc) (sty : Option GStyle) (td : TessData), td.pts = [] →
      (processStyle acc sty td).batches = acc.batches ∧
      (processStyle acc sty td).openPart = acc.openPart ∧
      (processStyle acc sty td).verts = acc.verts ∧
      (processStyle acc sty td).uvs = acc.uvs) := by
  constructor
  · intro g h hs
    unfold addHole
    rw [hs]
    rfl
  · intro acc sty td h
    cases sty with
    | none => exact ⟨rfl, rfl, rfl, rfl⟩
    | some st =>
      rw [processStyle_degenerate acc st td h]
      exact ⟨rfl, rfl, rfl, rfl⟩

/-- A concrete style for witnesses. -/
def gstyleEx : GStyle :=
  { texture := 0, colorKey := 0, native := false, uvMat := none,
    frameW := 1, frameH := 1, baseW := 1, baseH := 1, frameOffU := 0, frameOffV := 0 }

/-- Witness for claim C7's theorem at concrete inputs. -/
theorem error_free_core_w :
    addHole (freshGeometry []) ⟨⟨[], []⟩⟩ = none ∧
    (processStyle ⟨[], [], [], [], none⟩ (some gstyleEx) ⟨[], [2, 3]⟩).batches = [] := by
  constructor
  · exact error_free_core.1 (freshGeometry []) ⟨⟨[], []⟩⟩ rfl
  · exact (error_free_core.2 ⟨[], [], [], [], none⟩ (some gstyleEx) ⟨[], [2, 3]⟩ rfl).1

theorem updateBatches_stamps (limit thr : Nat) (g : Geometry)
    (h1 : ¬g.shapes.isEmpty = true) (h2 : g.dirty ≠ g.cacheDirty) :
    (updateBatches limit thr g).shapes = g.shapes ∧
    (updateBatches limit thr g).dirty = g.dirty ∧
    (updateBatches limit thr g).cacheDirty = g.dirty := by
  unfold updateBatches
  rw [if_neg h1, if_neg h2]
  unfold finishBatches rebuildCore widthSet
  split
  · exact ⟨rfl, rfl, rfl⟩
  · split
    · exact ⟨rfl, rfl, rfl⟩
    · exact ⟨rfl, rfl, rfl⟩

/-- Claim C3: the rebuild entry point is idempotent — a second call with no
intervening mutation is a no-op (the cached dirty stamp equals the counter),
so no further tessellation work happens and the packed attribute and index
buffers are identical. -/
theorem updateBatches_idem (limit thr : Nat) (g : Geometry) :
    updateBatches limit thr (updateBatches limit thr g) = updateBatches limit thr g ∧
    (updateBatches limit thr (updateBatches limit thr g)).tessCount =
      (updateBatches limit thr g).tessCount ∧
    (updateBatches limit thr (updateBatches limit thr g)).packed =
      (updateBatches limit thr g).packed ∧
    (updateBatches limit thr (updateBatches limit thr g)).indices =
      (updateBatches limit thr g).indices := by
  have main : updateBatches limit thr (updateBatches limit thr g) =
      updateBatches limit thr g := by
    by_cases h1 : g.shapes.isEmpty = true
    · have hg : updateBatches limit thr g = { g with batchable := true } := by
        unfold updateBatches
        rw [if_pos h1]
      rw [hg]
      unfold updateBatches
      rw [if_pos (show ({ g with batchable := true } : Geometry).shapes.isEmpty = true from h1)]
    · by_cases h2 : g.dirty = g.cacheDirty
      · have hg : updateBatches limit thr g = g := by
          unfold updateBatches
          rw [if_neg h1, if_pos h2]
        rw [hg]
        exact hg
      · obtain ⟨hs, hd, hc⟩ := updateBatches_stamps limit thr g h1 h2
        set g' := updateBatches limit thr g with hg'
        unfold updateBatches
        rw [if_neg (by rw [hs]; exact h1), if_pos (by rw [hd, hc])]
  exact ⟨main, by rw [main], by rw [main], by rw [main]⟩

/-- Claim C6: the style comparator returns false when either style is absent
and otherwise compares exactly texture identity, combined color+alpha key and
the native-line flag; consequently two consecutive visible style usages land
in one batch part exactly when mergeable, and any single differing field
forces a second part. -/
theorem mergeable_spec :
    (∀ a b : Option GStyle, mergeable a b = true ↔
      ∃ sa sb, a = some sa ∧ b = some sb ∧ sa.texture = sb.texture ∧
        sa.colorKey = sb.colorKey ∧ sa.native = sb.native) ∧
    (∀ (s1 s2 : ShapeRecord) (st1 st2 : GStyle),
      s1.fillStyle = some st1 → s2.fillStyle = some st2 →
      s1.lineStyle = none → s2.lineStyle = none →
      s1.fillTess.pts ≠ [] → s2.fillTess.pts ≠ [] →
      (closeOpen (processShapes ⟨[], [], [], [], none⟩ [s1, s2])).batches.length =
        if mergeable s1.fillStyle s2.fillStyle then 1 else 2) := by
  constructor
  · intro a b
    constructor
    · intro h
      rcases a with _ | sa
      · rcases b with _ | sb <;> simp [mergeable] at h
      · rcases b with _ | sb
        · simp [mergeable] at h
        · simp only [mergeable, Bool.and_eq_true, beq_iff_eq] at h
          exact ⟨sa, sb, rfl, rfl, h.1.1, h.1.2, h.2⟩
    · rintro ⟨sa, sb, rfl, rfl, h1, h2, h3⟩
      simp [mergeable, h1, h2, h3]
  · intro s1 s2 st1 st2 hf1 hf2 hl1 hl2 hp1 hp2
    have hp1' : (txTess s1.transform s1.fillTess).pts ≠ [] := by
      simpa [txTess] using hp1
    have hp2' : (txTess s2.transform s2.fillTess).pts ≠ [] := by
      simpa [txTess] using hp2
    rw [hf1, hf2]
    simp only [processShapes, List.foldl_cons, List.foldl_nil, processShape,
      hf1, hf2, hl1, hl2, processStyle_none]
    rw [processStyle_some _ _ _ hp1', processStyle_some _ _ _ hp2']
    by_cases hm : mergeable (some st1) (some st2) = true
    · rw [if_pos hm]
      simp [styleDelta, closeOpen, hm]
    · rw [if_neg hm]
      rw [Bool.not_eq_true] at hm
      simp [styleDelta, closeOpen, hm]

/-- Two concrete shapes over different textures for the C6 witness. -/
def shapeEx1 : ShapeRecord :=
  { fillStyle := some gstyleEx, lineStyle := none,
    fillTess := ⟨[(0, 0), (1, 0), (0, 1)], [0, 1, 2]⟩, lineTess := ⟨[], []⟩,
    holes := [], transform := none }

def shapeEx2 : ShapeRecord :=
  { fillStyle := some { gstyleEx with texture := 1 }, lineStyle := none,
    fillTess := ⟨[(2, 0), (3, 0), (2, 1)], [0, 1, 2]⟩, lineTess := ⟨[], []⟩,
    holes := [], transform := none }

/-- Witness for claim C6's theorem: a mergeable pair gives one batch part, a
texture-differing pair gives two. -/
theorem mergeable_spec_w :
    ((closeOpen (processShapes ⟨[], [], [], [], none⟩ [shapeEx1, shapeEx1])).batches.length =
      if mergeable shapeEx1.fillStyle shapeEx1.fillStyle then 1 else 2) ∧
    ((closeOpen (processShapes ⟨[], [], [], [], none⟩ [shapeEx1, shapeEx2])).batches.length =
      if mergeable shapeEx1.fillStyle shapeEx2.fillStyle then 1 else 2) := by
  constructor
  · exact mergeable_spec.2 shapeEx1 shapeEx1 gstyleEx gstyleEx rfl rfl rfl rfl
      (by decide) (by decide)
  · exact mergeable_spec.2 shapeEx1 shapeEx2 gstyleEx { gstyleEx with texture := 1 }
      rfl rfl rfl rfl (by decide) (by decide)

theorem styleDelta_isSome (a i : Nat) (op : Option OpenPart) (st : GStyle) :
    (styleDelta a i op st).2.isSome = true := by
  cases op with
  | none => rfl
  | some o =>
    simp only [styleDelta]
    split <;> rfl

theorem processStyle_open_mono (acc : BuildAcc) (sty : Option GStyle) (td : TessData)
    (h : acc.openPart.isSome = true) :
    (processStyle acc sty td).openPart.isSome = true := by
  cases sty with
  | none => exact h
  | some st =>
    by_cases hp : td.pts = []
    · rw [processStyle_degenerate acc st td hp]
      exact h
    · rw [processStyle_some acc st td hp]
      exact styleDelta_isSome _ _ _ _

theorem processStyle_or (acc : BuildAcc) (sty : Option GStyle) (td : TessData) :
    ((processStyle acc sty td).verts = acc.verts ∧
     (processStyle acc sty td).uvs = acc.uvs ∧
     (processStyle acc sty td).batches = acc.batches ∧
     (processStyle acc sty td).openPart = acc.openPart) ∨
    (processStyle acc sty td).openPart.isSome = true := by
  cases sty with
  | none => exact Or.inl ⟨rfl, rfl, rfl, rfl⟩
  | some st =>
    by_cases hp : td.pts = []
    · rw [processStyle_degenerate acc st td hp]
      exact Or.inl ⟨rfl, rfl, rfl, rfl⟩
    · rw [processStyle_some acc st td hp]
      exact Or.inr (styleDelta_isSome _ _ _ _)

theorem processShape_open_mono (acc : BuildAcc) (sh : ShapeRecord)
    (h : acc.openPart.isSome = true) :
    (processShape acc sh).openPart.isSome = true :=
  processStyle_open_mono _ _ _ (processStyle_open_mono _ _ _ h)

theorem processShape_or (acc : BuildAcc) (sh : ShapeRecord) :
    ((processShape acc sh).verts = acc.verts ∧
     (processShape acc sh).uvs = acc.uvs ∧
     (processShape acc sh).batches = acc.batches ∧
     (processShape acc sh).openPart = acc.openPart) ∨
    (processShape acc sh).openPart.isSome = true := by
  unfold processShape
  rcases processStyle_or acc sh.fillStyle (txTess sh.transform sh.fillTess) with
    ⟨h1, h2, h3, h4⟩ | h
  · rcases processStyle_or (processStyle acc sh.fillStyle (txTess sh.transform sh.fillTess))
      sh.lineStyle (txTess sh.transform (lineTessOf sh)) with ⟨g1, g2, g3, g4⟩ | hh
    · exact Or.inl ⟨g1.trans h1, g2.trans h2, g3.trans h3, g4.trans h4⟩
    · exact Or.inr hh
  · exact Or.inr (processStyle_open_mono _ _ _ h)

theorem processShapes_open_mono (shapes : List ShapeRecord) :
    ∀ acc : BuildAcc, acc.openPart.isSome = true →
      (processShapes acc shapes).openPart.isSome = true := by
  induction shapes with
  | nil => intro acc h; exact h
  | cons sh rest ih =>
    intro acc h
    exact ih (processShape acc sh) (processShape_open_mono acc sh h)

theorem processShapes_or (shapes : List ShapeRecord) :
    ∀ acc : BuildAcc,
    ((processShapes acc shapes).verts = acc.verts ∧
     (processShapes acc shapes).uvs = acc.uvs ∧
     (processShapes acc shapes).batches = acc.batches ∧
     (processShapes acc shapes).openPart = acc.openPart) ∨
    (processShapes acc shapes).openPart.isSome = true := by
  induction shapes with
  | nil => intro acc; exact Or.inl ⟨rfl, rfl, rfl, rfl⟩
  | cons sh rest ih =>
    intro acc
    rcases processShape_or acc sh with ⟨h1, h2, h3, h4⟩ | h
    · rcases ih (processShape acc sh) with ⟨g1, g2, g3, g4⟩ | hh
      · exact Or.inl ⟨g1.trans h1, g2.trans h2, g3.trans h3, g4.trans h4⟩
      · exact Or.inr hh
    · exact Or.inr (processShapes_open_mono rest _ h)

theorem closeOpen_none (acc : BuildAcc) (h : acc.openPart = none) :
    closeOpen acc = acc := by
  simp only [closeOpen, h]

theorem closeOpen_batches_nil (acc : BuildAcc) (h : (closeOpen acc).batches = []) :
    acc.batches = [] ∧ acc.openPart = none := by
  cases ho : acc.openPart with
  | none =>
    rw [closeOpen_none acc ho] at h
    exact ⟨h, rfl⟩
  | some op =>
    unfold closeOpen at h
    rw [ho] at h
    simp at h

/-- When a rebuild ends with zero batch parts, nothing was ever appended:
the arrays equal the geometry's and its prior part list was already empty. -/
theorem rebuild_zero_parts (g : Geometry) (todo : List ShapeRecord)
    (h : (closeOpen (processShapes (accOf g) todo)).batches = []) :
    (closeOpen (processShapes (accOf g) todo)).verts = g.verts ∧ g.batches = [] := by
  obtain ⟨hPb, hPo⟩ := closeOpen_batches_nil _ h
  rcases processShapes_or todo (accOf g) with ⟨hv, hu, hb, ho⟩ | hs
  · rw [closeOpen_none _ hPo]
    refine ⟨hv, ?_⟩
    exact hb.symm.trans hPb
  · rw [hPo] at hs
    cases hs

theorem widthChoice (v : Nat) :
    ((if 65535 < v then IndexWidth.w32 else IndexWidth.w16) = IndexWidth.w16) ↔
      v ≤ 65535 := by
  split
  · rename_i hv
    constructor
    · intro hw
      exact absurd hw (by decide)
    · intro hv'
      omega
  · rename_i hv
    constructor
    · intro _
      omega
    · intro _
      rfl

/-- The index-width agreement a geometry must keep: 16-bit exactly when the
vertex count is at most 65535. -/
def widthInv (g : Geometry) : Prop :=
  g.indexWidth = IndexWidth.w16 ↔ g.verts.length ≤ 65535

/-- Claim C5: every rebuild keeps the index buffer 16-bit exactly when the
total vertex count is at most 65535 and 32-bit exactly when it exceeds it
(stated as preservation of that agreement through `updateBatches`, whose
rebuilding path chooses the width from the rebuilt vertex count). -/
theorem indexWidth_spec (limit thr : Nat) (g : Geometry) (h : widthInv g) :
    widthInv (updateBatches limit thr g) := by
  unfold updateBatches
  by_cases h1 : g.shapes.isEmpty = true
  · rw [if_pos h1]
    exact h
  · rw [if_neg h1]
    by_cases h2 : g.dirty = g.cacheDirty
    · rw [if_pos h2]
      exact h
    · rw [if_neg h2]
      unfold finishBatches
      split
      · rename_i hz
        obtain ⟨hverts, _⟩ := rebuild_zero_parts g (g.shapes.drop g.shapeIndex)
          (by simpa using hz)
        unfold widthInv
        show g.indexWidth = IndexWidth.w16 ↔
          (closeOpen (processShapes (accOf g) (g.shapes.drop g.shapeIndex))).verts.length ≤ 65535
        rw [hverts]
        exact h
      · split
        · unfold widthInv
          exact widthChoice _
        · unfold widthInv
          exact widthChoice _

/-- Witness for claim C5's theorem at a concrete geometry. -/
theorem indexWidth_spec_w : widthInv (updateBatches 8 100 (freshGeometry [shapeEx1])) :=
  indexWidth_spec 8 100 (freshGeometry [shapeEx1])
    (by unfold widthInv; exact ⟨fun _ => by decide, fun _ => rfl⟩)

/-- Claim C2: after a rebuild that actually runs (shapes present, dirty stamp
differs), the geometry is marked directly batchable exactly when its total
vertex count is at most the configurable threshold, no batch part uses a
native-line style, and the total vertex count is at most 65535.  The
well-formedness hypothesis (a geometry with no parts holds no vertices) is
every reachable geometry's state. -/
theorem batchable_spec (limit thr : Nat) (g : Geometry)
    (h1 : ¬g.shapes.isEmpty = true) (h2 : g.dirty ≠ g.cacheDirty)
    (hwf : g.batches = [] → g.verts = []) :
    ((updateBatches limit thr g).batchable = true ↔
      ((updateBatches limit thr g).verts.length ≤ thr ∧
       (∀ b ∈ (updateBatches limit thr g).batches, b.style.native = false) ∧
       (updateBatches limit thr g).verts.length ≤ 65535)) := by
  unfold updateBatches
  rw [if_neg h1, if_neg h2]
  unfold finishBatches
  split
  · rename_i hz
    obtain ⟨hverts, hgb⟩ := rebuild_zero_parts g (g.shapes.drop g.shapeIndex)
      (by simpa using hz)
    have hz' : (closeOpen (processShapes (accOf g) (g.shapes.drop g.shapeIndex))).batches = [] := by
      simpa using hz
    have hvnil : (closeOpen (processShapes (accOf g) (g.shapes.drop g.shapeIndex))).verts = [] :=
      hverts.trans (hwf hgb)
    constructor
    · intro _
      refine ⟨?_, ?_, ?_⟩
      · show (closeOpen (processShapes (accOf g) (g.shapes.drop g.shapeIndex))).verts.length ≤ thr
        rw [hvnil]
        exact Nat.zero_le thr
      · intro b hb
        rw [show ({ rebuildCore g (closeOpen (processShapes (accOf g)
            (g.shapes.drop g.shapeIndex))) with batchable := true } : Geometry).batches =
            (closeOpen (processShapes (accOf g) (g.shapes.drop g.shapeIndex))).batches
          from rfl, hz'] at hb
        cases hb
      · show (closeOpen (processShapes (accOf g) (g.shapes.drop g.shapeIndex))).verts.length ≤ 65535
        rw [hvnil]
        exact Nat.zero_le 65535
    · intro _
      rfl
  · split
    · rename_i hz hcls
      constructor
      · intro _
        exact hcls
      · intro _
        rfl
    · rename_i hz hcls
      constructor
      · intro hb
        cases hb
      · intro hr
        exact absurd hr hcls

/-- Witness for claim C2's theorem at a concrete geometry. -/
theorem batchable_spec_w :
    (updateBatches 8 100 (freshGeometry [shapeEx1])).batchable = true ↔
      ((updateBatches 8 100 (freshGeometry [shapeEx1])).verts.length ≤ 100 ∧
       (∀ b ∈ (updateBatches 8 100 (freshGeometry [shapeEx1])).batches,
         b.style.native = false) ∧
       (updateBatches 8 100 (freshGeometry [shapeEx1])).verts.length ≤ 65535) :=
  batchable_spec 8 100 (freshGeometry [shapeEx1]) (by decide) (by decide) (fun _ => rfl)

/-- All textures referenced by the compiler state: those of the pushed calls
and of the in-progress call. -/
def callsTex (s : CompState) : List Nat :=
  (s.done.map DrawCall.texArray).flatten ++ s.cur.texArray

/-- The invariant of the greedy draw-call compiler: pushed calls respect the
slot budget, the open call's textures are counted by the slot counter which
never exceeds the budget, and a texture marked with the current tick is bound
in the open call (marks never run ahead of the tick). -/
structure CompInv (limit : Nat) (s : CompState) : Prop where
  doneLen : ∀ c ∈ s.done, c.texArray.length ≤ limit
  curLen : s.cur.texArray.length ≤ s.count
  countLe : s.count ≤ limit
  tickMem : ∀ t, s.texTick t = s.tick → t ∈ s.cur.texArray
  tickLe : ∀ t, s.texTick t ≤ s.tick

theorem tickStep_ok (limit : Nat) (s : CompState) (nat : Bool)
    (inv : CompInv limit s) :
    CompInv limit (tickStep limit s nat) ∧
    callsTex (tickStep limit s nat) = callsTex s ∧
    (tickStep limit s nat).cur.size = s.cur.size ∧
    (tickStep limit s nat).cur.texArray = s.cur.texArray := by
  unfold tickStep
  split
  · refine ⟨⟨?_, ?_, ?_, ?_, ?_⟩, rfl, rfl, rfl⟩ <;> dsimp only
    · exact inv.doneLen
    · exact le_trans inv.curLen inv.countLe
    · exact le_refl _
    · intro t ht
      exact absurd ht (by have := inv.tickLe t; omega)
    · intro t
      have := inv.tickLe t
      omega
  · exact ⟨inv, rfl, rfl, rfl⟩

theorem texBind_ok (limit : Nat) (hl : 1 ≤ limit) (s : CompState) (t : Nat)
    (inv : CompInv limit s) (szOk : s.cur.texArray ≠ [] → 0 < s.cur.size) :
    CompInv limit (texBind limit s t).1 ∧
    t ∈ (texBind limit s t).1.cur.texArray ∧
    (∀ x ∈ callsTex s, x ∈ callsTex (texBind limit s t).1) := by
  by_cases hmark : s.texTick t = s.tick
  · simp only [texBind, if_pos hmark]
    exact ⟨inv, inv.tickMem t hmark, fun x hx => hx⟩
  · by_cases hcnt : limit ≤ s.count
    · by_cases hsz : 0 < s.cur.size
      · simp only [texBind, if_neg hmark, if_pos hcnt, if_pos hsz]
        refine ⟨⟨?_, ?_, ?_, ?_, ?_⟩, ?_, ?_⟩ <;> dsimp only
        · intro c hc
          rcases List.mem_append.mp hc with hc | hc
          · exact inv.doneLen c hc
          · rw [List.mem_singleton.mp hc]
            exact le_trans inv.curLen inv.countLe
        · simp
        · exact hl
        · intro x hx
          by_cases hxt : x = t
          · simp [hxt]
          · rw [if_neg hxt] at hx
            exact absurd hx (by have := inv.tickLe x; omega)
        · intro x
          by_cases hxt : x = t
          · simp [hxt]
          · rw [if_neg hxt]
            have := inv.tickLe x
            omega
        · simp
        · intro x hx
          unfold callsTex at hx ⊢
          dsimp only
          simp only [List.map_append, List.map_cons, List.map_nil,
            List.flatten_append, List.flatten_cons, List.flatten_nil] at hx ⊢
          rcases List.mem_append.mp hx with hx | hx
          · exact List.mem_append_left _ (List.mem_append_left _ hx)
          · exact List.mem_append_left _ (List.mem_append_right _ (by simpa using hx))
      · have harr : s.cur.texArray = [] := by
          by_contra hne
          exact hsz (szOk hne)
        simp only [texBind, if_neg hmark, if_pos hcnt, if_neg hsz]
        refine ⟨⟨?_, ?_, ?_, ?_, ?_⟩, ?_, ?_⟩ <;> dsimp only
        · intro c hc
          exact inv.doneLen c hc
        · simp
        · exact hl
        · intro x hx
          by_cases hxt : x = t
          · simp [hxt]
          · rw [if_neg hxt] at hx
            exact absurd hx (by have := inv.tickLe x; omega)
        · intro x
          by_cases hxt : x = t
          · simp [hxt]
          · rw [if_neg hxt]
            have := inv.tickLe x
            omega
        · simp
        · intro x hx
          unfold callsTex at hx ⊢
          dsimp only
          rw [harr, List.append_nil] at hx
          exact List.mem_append_left _ hx
    · simp only [texBind, if_neg hmark, if_neg hcnt]
      refine ⟨⟨?_, ?_, ?_, ?_, ?_⟩, ?_, ?_⟩ <;> dsimp only
      · intro c hc
        exact inv.doneLen c hc
      · simpa using Nat.add_le_add_right inv.curLen 1
      · omega
      · intro x hx
        by_cases hxt : x = t
        · subst hxt
          simp
        · rw [if_neg hxt] at hx
          exact List.mem_append_left _ (inv.tickMem x hx)
      · intro x
        by_cases hxt : x = t
        · simp [hxt]
        · rw [if_neg hxt]
          have := inv.tickLe x
          omega
      · simp
      · intro x hx
        unfold callsTex at hx ⊢
        dsimp only
        rcases List.mem_append.mp hx with hx | hx
        · exact List.mem_append_left _ hx
        · exact List.mem_append_right _ (List.mem_append_left _ hx)

theorem spanStep_ok (limit : Nat) (s : CompState) (slot : Nat) (p : BatchPart)
    (inv : CompInv limit s) :
    CompInv limit (spanStep s slot p) ∧
    callsTex (spanStep s slot p) = callsTex s ∧
    (spanStep s slot p).cur.texArray = s.cur.texArray ∧
    (spanStep s slot p).cur.size = s.cur.size + partIndexSize p := by
  exact ⟨⟨inv.doneLen, inv.curLen, inv.countLe, inv.tickMem, inv.tickLe⟩, rfl, rfl, rfl⟩

theorem compStep_ok (limit : Nat) (hl : 1 ≤ limit) (s : CompState) (p : BatchPart)
    (hp : 0 < partIndexSize p) (inv : CompInv limit s)
    (szOk : s.cur.texArray ≠ [] → 0 < s.cur.size) :
    CompInv limit (compStep limit s p) ∧
    ((compStep limit s p).cur.texArray ≠ [] → 0 < (compStep limit s p).cur.size) ∧
    p.style.texture ∈ callsTex (compStep limit s p) ∧
    (∀ x ∈ callsTex s, x ∈ callsTex (compStep limit s p)) := by
  unfold compStep
  obtain ⟨inv1, hct1, hsz1, hta1⟩ := tickStep_ok limit s p.style.native inv
  have szOk1 : (tickStep limit s p.style.native).cur.texArray ≠ [] →
      0 < (tickStep limit s p.style.native).cur.size := by
    rw [hta1, hsz1]
    exact szOk
  obtain ⟨inv2, hmem2, hsub2⟩ :=
    texBind_ok limit hl (tickStep limit s p.style.native) p.style.texture inv1 szOk1
  obtain ⟨inv3, hct3, hta3, hsz3⟩ :=
    spanStep_ok limit (texBind limit (tickStep limit s p.style.native) p.style.texture).1
      (texBind limit (tickStep limit s p.style.native) p.style.texture).2 p inv2
  refine ⟨inv3, ?_, ?_, ?_⟩
  · intro _
    rw [hsz3]
    omega
  · rw [hct3]
    unfold callsTex
    exact List.mem_append_right _ hmem2
  · intro x hx
    rw [hct3]
    exact hsub2 x (by rw [hct1]; exact hx)

theorem compFold_ok (limit : Nat) (hl : 1 ≤ limit) (parts : List BatchPart) :
    ∀ s : CompState, CompInv limit s → (s.cur.texArray ≠ [] → 0 < s.cur.size) →
      (∀ p ∈ parts, 0 < partIndexSize p) →
      CompInv limit (parts.foldl (compStep limit) s) ∧
      ((parts.foldl (compStep limit) s).cur.texArray ≠ [] →
        0 < (parts.foldl (compStep limit) s).cur.size) ∧
      (∀ x ∈ callsTex s, x ∈ callsTex (parts.foldl (compStep limit) s)) ∧
      (∀ p ∈ parts, p.style.texture ∈ callsTex (parts.foldl (compStep limit) s)) := by
  induction parts with
  | nil =>
    intro s inv szOk _
    exact ⟨inv, szOk, fun x hx => hx, by simp⟩
  | cons p rest ih =>
    intro s inv szOk hpos
    obtain ⟨inv1, szOk1, hmem1, hsub1⟩ :=
      compStep_ok limit hl s p (hpos p (List.mem_cons_self _ _)) inv szOk
    obtain ⟨inv2, szOk2, hsub2, hmem2⟩ :=
      ih (compStep limit s p) inv1 szOk1 (fun q hq => hpos q (List.mem_cons_of_mem _ hq))
    rw [List.foldl_cons]
    refine ⟨inv2, szOk2, ?_, ?_⟩
    · intro x hx
      exact hsub2 x (hsub1 x hx)
    · intro q hq
      rcases List.mem_cons.mp hq with hq | hq
      · subst hq
        exact hsub2 _ hmem1
      · exact hmem2 q hq

/-- Claim C1: every compiled draw call binds at most `limit` textures, and a
batch-part sequence with more than `limit` distinct textures yields at least
`ceil(distinct / limit)` draw calls.  The hypotheses are the compiler's
operating conditions: a positive budget, texture marks at most the global
tick (the global-batch-tick contract), and batch parts covering a non-empty
index span (the builder never emits empty parts). -/
theorem drawCalls_texture_budget (limit tick0 : Nat) (tt ts : Nat → Nat)
    (parts : List BatchPart) (hl : 1 ≤ limit) (hfresh : ∀ t, tt t ≤ tick0)
    (hpos : ∀ p ∈ parts, 0 < partIndexSize p) :
    (∀ c ∈ (buildDrawCalls limit tick0 tt ts parts).1, c.texArray.length ≤ limit) ∧
    (limit < (parts.map fun p => p.style.texture).dedup.length →
      ((parts.map fun p => p.style.texture).dedup.length + limit - 1) / limit ≤
        (buildDrawCalls limit tick0 tt ts parts).1.length) := by
  have hinit : CompInv limit (compInit tick0 tt ts) := by
    refine ⟨?_, ?_, ?_, ?_, ?_⟩
    · intro c hc
      simp [compInit] at hc
    · exact le_refl 0
    · exact Nat.zero_le limit
    · intro t ht
      have := hfresh t
      simp only [compInit] at ht
      omega
    · intro t
      have := hfresh t
      simp only [compInit]
      omega
  have szOk0 : (compInit tick0 tt ts).cur.texArray ≠ [] →
      0 < (compInit tick0 tt ts).cur.size := by
    intro h
    exact absurd rfl h
  obtain ⟨invF, szOkF, _, hcov⟩ := compFold_ok limit hl parts _ hinit szOk0 hpos
  unfold buildDrawCalls
  dsimp only
  have hbudget : ∀ c ∈ (parts.foldl (compStep limit) (compInit tick0 tt ts)).done ++
      (if 0 < (parts.foldl (compStep limit) (compInit tick0 tt ts)).cur.size
       then [(parts.foldl (compStep limit) (compInit tick0 tt ts)).cur] else []),
      c.texArray.length ≤ limit := by
    intro c hc
    rcases List.mem_append.mp hc with hc | hc
    · exact invF.doneLen c hc
    · split at hc
      · rw [List.mem_singleton.mp hc]
        exact le_trans invF.curLen invF.countLe
      · cases hc
  refine ⟨hbudget, ?_⟩
  intro hgt
  have hflat : ∀ x ∈ callsTex (parts.foldl (compStep limit) (compInit tick0 tt ts)),
      x ∈ (((parts.foldl (compStep limit) (compInit tick0 tt ts)).done ++
        (if 0 < (parts.foldl (compStep limit) (compInit tick0 tt ts)).cur.size
         then [(parts.foldl (compStep limit) (compInit tick0 tt ts)).cur] else [])).map
          DrawCall.texArray).flatten := by
    intro x hx
    by_cases hsz : 0 < (parts.foldl (compStep limit) (compInit tick0 tt ts)).cur.size
    · rw [if_pos hsz]
      unfold callsTex at hx
      simp only [List.map_append, List.map_cons, List.map_nil, List.flatten_append,
        List.flatten_cons, List.flatten_nil, List.append_nil]
      exact hx
    · rw [if_neg hsz]
      have harr : (parts.foldl (compStep limit) (compInit tick0 tt ts)).cur.texArray = [] := by
        by_contra hne
        exact hsz (szOkF hne)
      unfold callsTex at hx
      rw [harr, List.append_nil] at hx
      simpa using hx
  set calls := (parts.foldl (compStep limit) (compInit tick0 tt ts)).done ++
    (if 0 < (parts.foldl (compStep limit) (compInit tick0 tt ts)).cur.size
     then [(parts.foldl (compStep limit) (compInit tick0 tt ts)).cur] else []) with hcalls
  have hsubF : (parts.map fun p => p.style.texture).toFinset ⊆
      ((calls.map DrawCall.texArray).flatten).toFinset := by
    intro x hx
    rw [List.mem_toFinset] at hx ⊢
    obtain ⟨p, hp, hpx⟩ := List.mem_map.mp hx
    subst hpx
    exact hflat _ (hcov p hp)
  have h1 : (parts.map fun p => p.style.texture).dedup.length =
      (parts.map fun p => p.style.texture).toFinset.card :=
    (List.card_toFinset _).symm
  have h2 := Finset.card_le_card hsubF
  have h3 := ((calls.map DrawCall.texArray).flatten).toFinset_card_le
  have h4 : ((calls.map DrawCall.texArray).flatten).length ≤ calls.length * limit := by
    rw [List.length_flatten]
    have hbd : ∀ x ∈ (calls.map DrawCall.texArray).map List.length, x ≤ limit := by
      intro x hx
      obtain ⟨a, ha, hax⟩ := List.mem_map.mp hx
      obtain ⟨c, hc, hca⟩ := List.mem_map.mp ha
      subst hax
      subst hca
      exact hbudget c hc
    have := List.sum_le_card_nsmul _ limit hbd
    simpa [smul_eq_mul] using this
  have h5 : (parts.map fun p => p.style.texture).dedup.length ≤ limit * calls.length := by
    rw [Nat.mul_comm]
    omega
  rw [Nat.div_le_iff_le_mul_add_pred (by omega : 0 < limit)]
  set m := limit * calls.length
  omega

/-- Nine single-texture batch parts over nine distinct textures. -/
def partsEx9 : List BatchPart :=
  (List.range 9).map fun i => ⟨{ gstyleEx with texture := i }, i, i + 1, i, i + 1⟩

/-- Witness for claim C1's theorem: budget 8, nine distinct textures. -/
theorem drawCalls_texture_budget_w :
    (∀ c ∈ (buildDrawCalls 8 0 (fun _ => 0) (fun _ => 0) partsEx9).1,
      c.texArray.length ≤ 8) ∧
    (8 < (partsEx9.map fun p => p.style.texture).dedup.length →
      ((partsEx9.map fun p => p.style.texture).dedup.length + 8 - 1) / 8 ≤
        (buildDrawCalls 8 0 (fun _ => 0) (fun _ => 0) partsEx9).1.length) :=
  drawCalls_texture_budget 8 0 (fun _ => 0) (fun _ => 0) partsEx9 (by decide)
    (fun _ => Nat.le_refl 0) (by decide)

/-!
Claim C4 (incrementality) machinery.  An incremental rebuild starts with the
last batch part of the previous run already closed, while a from-scratch
build still has it open when reaching the new shape, so the two runs' batch
part lists can differ: a scratch part may extend an incremental one by a
merge (when the new shape's first style is mergeable with the old open part)
or by extra index span.  Neither difference is visible in the packed
attribute buffer: the draw-call compiler's per-vertex output depends only on
each part's style and attribute span.
-/

/-- The three style fields the comparator and the compiler read. -/
def fieldsEq (a b : GStyle) : Prop :=
  a.texture = b.texture ∧ a.colorKey = b.colorKey ∧ a.native = b.native

theorem mergeable_congr (a b : GStyle) (h : fieldsEq a b) (c : GStyle) :
    mergeable (some a) (some c) = mergeable (some b) (some c) := by
  obtain ⟨h1, h2, h3⟩ := h
  simp [mergeable, h1, h2, h3]

theorem mergeable_fieldsEq (a b : GStyle) (h : mergeable (some a) (some b) = true) :
    fieldsEq a b := by
  simp only [mergeable, Bool.and_eq_true, beq_iff_eq] at h
  exact ⟨h.1.1, h.1.2, h.2⟩

/-- The part produced by the scratch build when the incremental build
produced the two adjacent parts `m` and `p` of one style family. -/
def mergeBP (m p : BatchPart) : BatchPart :=
  ⟨m.style, m.attribStart, p.attribEnd, m.indexStart, p.indexEnd⟩

/-- Parts that agree on everything the compiler's per-vertex output reads:
the style and the attribute span (the index span may differ when degenerate
tessellation appended indices without vertices). -/
def partRelOne (a b : BatchPart) : Prop :=
  a.style = b.style ∧ a.attribStart = b.attribStart ∧ a.attribEnd = b.attribEnd

/-- Relation between the incremental and the from-scratch batch part lists:
pointwise `partRelOne`, or the same with one adjacent pair merged into one
part on the scratch side. -/
def partsRel (B1 B2 : List BatchPart) : Prop :=
  List.Forall₂ partRelOne B1 B2 ∨
  ∃ X1 X2 m p Y1 Y2, B1 = X1 ++ m :: p :: Y1 ∧ B2 = X2 ++ mergeBP m p :: Y2 ∧
    List.Forall₂ partRelOne X1 X2 ∧ List.Forall₂ partRelOne Y1 Y2 ∧
    fieldsEq m.style p.style ∧ m.attribEnd = p.attribStart ∧
    m.attribStart ≤ m.attribEnd ∧ p.attribStart ≤ p.attribEnd

theorem partRelOne_refl (a : BatchPart) : partRelOne a a := ⟨rfl, rfl, rfl⟩

theorem forall₂_partRelOne_refl (l : List BatchPart) : List.Forall₂ partRelOne l l := by
  induction l with
  | nil => exact List.Forall₂.nil
  | cons a l ih => exact List.Forall₂.cons (partRelOne_refl a) ih

theorem partsRel_refl (l : List BatchPart) : partsRel l l :=
  Or.inl (forall₂_partRelOne_refl l)

theorem forall₂_append_one (X1 X2 : List BatchPart) (c : BatchPart)
    (h : List.Forall₂ partRelOne X1 X2) :
    List.Forall₂ partRelOne (X1 ++ [c]) (X2 ++ [c]) :=
  List.rel_append h (List.Forall₂.cons (partRelOne_refl c) List.Forall₂.nil)

theorem partsRel_append_one (B1 B2 : List BatchPart) (c : BatchPart)
    (h : partsRel B1 B2) : partsRel (B1 ++ [c]) (B2 ++ [c]) := by
  rcases h with h | ⟨X1, X2, m, p, Y1, Y2, e1, e2, hX, hY, hrest⟩
  · exact Or.inl (forall₂_append_one _ _ c h)
  · refine Or.inr ⟨X1, X2, m, p, Y1 ++ [c], Y2 ++ [c], ?_, ?_,
      hX, forall₂_append_one _ _ c hY, hrest⟩
    · rw [e1]
      simp
    · rw [e2]
      simp

/-- The slot the compiler records for a part's texture. -/
def slotOf (limit : Nat) (s : CompState) (p : BatchPart) : Nat :=
  (texBind limit (tickStep limit s p.style.native) p.style.texture).2

theorem tickStep_char (limit : Nat) (s : CompState) (nat : Bool) :
    tickStep limit s nat =
      { s with curNative := nat,
               count := if (nat != s.curNative) = true then limit else s.count,
               tick := if (nat != s.curNative) = true then s.tick + 1 else s.tick } := by
  unfold tickStep
  split
  · rfl
  · rename_i h
    have h' : nat = s.curNative := by simpa using h
    rw [h']

theorem tickStep_colors (limit : Nat) (s : CompState) (nat : Bool) :
    (tickStep limit s nat).colors = s.colors := by
  rw [tickStep_char]

theorem tickStep_texIds (limit : Nat) (s : CompState) (nat : Bool) :
    (tickStep limit s nat).texIds = s.texIds := by
  rw [tickStep_char]

theorem texBind_colors (limit : Nat) (s : CompState) (t : Nat) :
    (texBind limit s t).1.colors = s.colors := by
  unfold texBind
  split
  · rfl
  · split <;> rfl

theorem texBind_texIds (limit : Nat) (s : CompState) (t : Nat) :
    (texBind limit s t).1.texIds = s.texIds := by
  unfold texBind
  split
  · rfl
  · split <;> rfl

theorem compStep_colors (limit : Nat) (s : CompState) (p : BatchPart) :
    (compStep limit s p).colors =
      s.colors ++ List.replicate (partAttribSize p) p.style.colorKey := by
  unfold compStep spanStep
  dsimp only
  rw [texBind_colors, tickStep_colors]

theorem compStep_texIds (limit : Nat) (s : CompState) (p : BatchPart) :
    (compStep limit s p).texIds =
      s.texIds ++ List.replicate (partAttribSize p) (slotOf limit s p) := by
  unfold compStep spanStep slotOf
  dsimp only
  rw [texBind_texIds, tickStep_texIds]

theorem tickStep_curNative (limit : Nat) (s : CompState) (nat : Bool) :
    (tickStep limit s nat).curNative = nat := by
  rw [tickStep_char]

theorem texBind_after (limit : Nat) (s : CompState) (t : Nat) :
    (texBind limit s t).1.curNative = s.curNative ∧
    (texBind limit s t).1.texTick t = (texBind limit s t).1.tick ∧
    (texBind limit s t).1.texSlot t = (texBind limit s t).2 := by
  unfold texBind
  by_cases hm : s.texTick t = s.tick
  · simp only [if_pos hm]
    refine ⟨?_, ?_, ?_⟩ <;> first | trivial | exact hm
  · simp only [if_neg hm]
    by_cases hcnt : limit ≤ s.count
    · simp only [if_pos hcnt]
      refine ⟨?_, ?_, ?_⟩ <;> first | trivial | simp
    · simp only [if_neg hcnt]
      refine ⟨?_, ?_, ?_⟩ <;> first | trivial | simp

theorem compStep_after (limit : Nat) (s : CompState) (p : BatchPart) :
    (compStep limit s p).curNative = p.style.native ∧
    (compStep limit s p).texTick p.style.texture = (compStep limit s p).tick ∧
    (compStep limit s p).texSlot p.style.texture = slotOf limit s p := by
  obtain ⟨h1, h2, h3⟩ := texBind_after limit (tickStep limit s p.style.native) p.style.texture
  unfold compStep spanStep
  dsimp only
  exact ⟨h1.trans (tickStep_curNative limit s p.style.native), h2, h3⟩

theorem compStep_reuse (limit : Nat) (s : CompState) (p : BatchPart)
    (hnat : p.style.native = s.curNative)
    (hmark : s.texTick p.style.texture = s.tick) :
    compStep limit s p = spanStep s (s.texSlot p.style.texture) p := by
  unfold compStep
  have hT : tickStep limit s p.style.native = s := by
    unfold tickStep
    rw [if_neg (by simp [hnat])]
  rw [hT]
  have hB : texBind limit s p.style.texture = (s, s.texSlot p.style.texture) := by
    unfold texBind
    rw [if_pos hmark]
  rw [hB]

/-- The compiler-state fields that decide all future branching and slot
assignment. -/
def CoreSim (s1 s2 : CompState) : Prop :=
  s1.count = s2.count ∧ s1.tick = s2.tick ∧ s1.texTick = s2.texTick ∧
  s1.texSlot = s2.texSlot ∧ s1.curNative = s2.curNative ∧
  s1.cur.texArray = s2.cur.texArray

/-- Core simulation plus equality of the per-vertex output arrays. -/
def CompSim (s1 s2 : CompState) : Prop :=
  CoreSim s1 s2 ∧ s1.colors = s2.colors ∧ s1.texIds = s2.texIds

theorem texBind_congr (limit : Nat) (s1 s2 : CompState) (t : Nat)
    (h : CoreSim s1 s2) :
    CoreSim (texBind limit s1 t).1 (texBind limit s2 t).1 ∧
    (texBind limit s1 t).2 = (texBind limit s2 t).2 := by
  obtain ⟨hc, ht, htt, hts, hn, ha⟩ := h
  by_cases hm : s1.texTick t = s1.tick
  · have hm2 : s2.texTick t = s2.tick := by rw [← htt, ← ht]; exact hm
    simp only [texBind, if_pos hm, if_pos hm2]
    exact ⟨⟨hc, ht, htt, hts, hn, ha⟩, by rw [hts]⟩
  · have hm2 : ¬s2.texTick t = s2.tick := by rw [← htt, ← ht]; exact hm
    by_cases hcnt : limit ≤ s1.count
    · have hcnt2 : limit ≤ s2.count := hc ▸ hcnt
      simp only [texBind, if_neg hm, if_neg hm2, if_pos hcnt, if_pos hcnt2]
      refine ⟨⟨?_, ?_, ?_, ?_, ?_, ?_⟩, ?_⟩ <;> simp only [hc, ht, htt, hts, hn, ha]
    · have hcnt2 : ¬limit ≤ s2.count := hc ▸ hcnt
      simp only [texBind, if_neg hm, if_neg hm2, if_neg hcnt, if_neg hcnt2]
      refine ⟨⟨?_, ?_, ?_, ?_, ?_, ?_⟩, ?_⟩ <;> simp only [hc, ht, htt, hts, hn, ha]

theorem tickStep_congr (limit : Nat) (s1 s2 : CompState) (nat : Bool) (h : CoreSim s1 s2) :
    CoreSim (tickStep limit s1 nat) (tickStep limit s2 nat) := by
  obtain ⟨hc, ht, htt, hts, hn, ha⟩ := h
  rw [tickStep_char, tickStep_char]
  refine ⟨?_, ?_, ?_, ?_, ?_, ?_⟩ <;> simp only [hc, ht, htt, hts, hn, ha]

theorem spanStep_core (s : CompState) (slot : Nat) (p : BatchPart) :
    CoreSim (spanStep s slot p) s :=
  ⟨rfl, rfl, rfl, rfl, rfl, rfl⟩

theorem compStep_core (limit : Nat) (s1 s2 : CompState) (p q : BatchPart)
    (h : CoreSim s1 s2) (hqt : p.style.texture = q.style.texture)
    (hqn : p.style.native = q.style.native) :
    CoreSim (compStep limit s1 p) (compStep limit s2 q) ∧
    slotOf limit s1 p = slotOf limit s2 q := by
  have h1 : CoreSim (tickStep limit s1 p.style.native) (tickStep limit s2 q.style.native) := by
    rw [← hqn]
    exact tickStep_congr limit s1 s2 p.style.native h
  have h2 : CoreSim (texBind limit (tickStep limit s1 p.style.native) p.style.texture).1
      (texBind limit (tickStep limit s2 q.style.native) q.style.texture).1 ∧
      (texBind limit (tickStep limit s1 p.style.native) p.style.texture).2 =
        (texBind limit (tickStep limit s2 q.style.native) q.style.texture).2 := by
    rw [← hqt]
    exact texBind_congr limit _ _ p.style.texture h1
  constructor
  · exact h2.1
  · exact h2.2

theorem partAttribSize_eq (p q : BatchPart) (h : partRelOne p q) :
    partAttribSize p = partAttribSize q := by
  unfold partAttribSize
  rw [h.2.1, h.2.2]

theorem CompSim_congr_one (limit : Nat) (s1 s2 : CompState) (p q : BatchPart)
    (h : CompSim s1 s2) (hpq : partRelOne p q) :
    CompSim (compStep limit s1 p) (compStep limit s2 q) := by
  obtain ⟨hcore, hcol, htid⟩ := h
  obtain ⟨hsty, ha1, ha2⟩ := hpq
  have hq := compStep_core limit s1 s2 p q hcore (by rw [hsty]) (by rw [hsty])
  have hsz : partAttribSize p = partAttribSize q := partAttribSize_eq p q ⟨hsty, ha1, ha2⟩
  refine ⟨hq.1, ?_, ?_⟩
  · rw [compStep_colors, compStep_colors, hcol, hsty, hsz]
  · rw [compStep_texIds, compStep_texIds, htid, hq.2, hsz]

theorem CompSim_merge (limit : Nat) (s1 s2 : CompState) (m p : BatchPart)
    (h : CompSim s1 s2) (hf : fieldsEq m.style p.style)
    (hadj : m.attribEnd = p.attribStart) (hm1 : m.attribStart ≤ m.attribEnd)
    (hp1 : p.attribStart ≤ p.attribEnd) :
    CompSim (compStep limit (compStep limit s1 m) p) (compStep limit s2 (mergeBP m p)) := by
  obtain ⟨hcore, hcol, htid⟩ := h
  obtain ⟨hft, hfc, hfn⟩ := hf
  have hq := compStep_core limit s1 s2 m (mergeBP m p) hcore rfl rfl
  have hsizes : partAttribSize (mergeBP m p) = partAttribSize m + partAttribSize p := by
    unfold partAttribSize mergeBP
    dsimp only
    omega
  have hafter := compStep_after limit s1 m
  have hnat : p.style.native = (compStep limit s1 m).curNative := by
    rw [hafter.1, ← hfn]
  have hmark : (compStep limit s1 m).texTick p.style.texture = (compStep limit s1 m).tick := by
    rw [← hft]
    exact hafter.2.1
  have hslotp : (compStep limit s1 m).texSlot p.style.texture = slotOf limit s1 m := by
    rw [← hft]
    exact hafter.2.2
  rw [compStep_reuse limit (compStep limit s1 m) p hnat hmark]
  refine ⟨hq.1, ?_, ?_⟩
  · rw [show (spanStep (compStep limit s1 m)
        ((compStep limit s1 m).texSlot p.style.texture) p).colors =
        (compStep limit s1 m).colors ++
          List.replicate (partAttribSize p) p.style.colorKey from rfl]
    rw [compStep_colors, compStep_colors, hcol, hsizes, ← hfc]
    rw [show (mergeBP m p).style.colorKey = m.style.colorKey from rfl]
    rw [List.replicate_add, List.append_assoc]
  · rw [show (spanStep (compStep limit s1 m)
        ((compStep limit s1 m).texSlot p.style.texture) p).texIds =
        (compStep limit s1 m).texIds ++
          List.replicate (partAttribSize p)
            ((compStep limit s1 m).texSlot p.style.texture) from rfl]
    rw [hslotp, compStep_texIds, compStep_texIds, htid, hsizes, ← hq.2]
    rw [List.replicate_add, List.append_assoc]

theorem CompSim_refl (s : CompState) : CompSim s s :=
  ⟨⟨rfl, rfl, rfl, rfl, rfl, rfl⟩, rfl, rfl⟩

theorem compFold_congr (limit : Nat) {L1 L2 : List BatchPart}
    (h : List.Forall₂ partRelOne L1 L2) :
    ∀ s1 s2, CompSim s1 s2 →
      CompSim (L1.foldl (compStep limit) s1) (L2.foldl (compStep limit) s2) := by
  induction h with
  | nil => intro s1 s2 hs; exact hs
  | cons hpq hrest ih =>
    intro s1 s2 hs
    rw [List.foldl_cons, List.foldl_cons]
    exact ih _ _ (CompSim_congr_one limit s1 s2 _ _ hs hpq)

theorem compFold_partsRel (limit : Nat) (B1 B2 : List BatchPart) (h : partsRel B1 B2)
    (s1 s2 : CompState) (hs : CompSim s1 s2) :
    CompSim (B1.foldl (compStep limit) s1) (B2.foldl (compStep limit) s2) := by
  rcases h with h | ⟨X1, X2, m, p, Y1, Y2, e1, e2, hX, hY, hf, hadj, hm1, hp1⟩
  · exact compFold_congr limit h s1 s2 hs
  · subst e1
    subst e2
    rw [List.foldl_append, List.foldl_append, List.foldl_cons, List.foldl_cons,
      List.foldl_cons]
    exact compFold_congr limit hY _ _
      (CompSim_merge limit _ _ m p (compFold_congr limit hX s1 s2 hs) hf hadj hm1 hp1)

theorem buildDrawCalls_partsRel (limit tick0 : Nat) (tt ts : Nat → Nat)
    (B1 B2 : List BatchPart) (h : partsRel B1 B2) :
    (buildDrawCalls limit tick0 tt ts B1).2.1 = (buildDrawCalls limit tick0 tt ts B2).2.1 ∧
    (buildDrawCalls limit tick0 tt ts B1).2.2 = (buildDrawCalls limit tick0 tt ts B2).2.2 := by
  have hsim := compFold_partsRel limit B1 B2 h (compInit tick0 tt ts) (compInit tick0 tt ts)
    (CompSim_refl _)
  unfold buildDrawCalls
  dsimp only
  exact ⟨hsim.2.1, hsim.2.2⟩

theorem map_eq_of_forall₂ {L1 L2 : List BatchPart}
    (h : List.Forall₂ partRelOne L1 L2) (g : BatchPart → List Nat)
    (hg : ∀ a b, partRelOne a b → g a = g b) : L1.map g = L2.map g := by
  induction h with
  | nil => rfl
  | cons hpq hrest ih =>
    rw [List.map_cons, List.map_cons, hg _ _ hpq, ih]

theorem replicate_color_congr (a b : BatchPart) (h : partRelOne a b) :
    List.replicate (partAttribSize a) a.style.colorKey =
      List.replicate (partAttribSize b) b.style.colorKey := by
  rw [partAttribSize_eq a b h, h.1]

theorem directColors_partsRel (B1 B2 : List BatchPart) (h : partsRel B1 B2) :
    directColors B1 = directColors B2 := by
  rcases h with h | ⟨X1, X2, m, p, Y1, Y2, e1, e2, hX, hY, hf, hadj, hm1, hp1⟩
  · unfold directColors
    rw [map_eq_of_forall₂ h _ replicate_color_congr]
  · subst e1
    subst e2
    unfold directColors
    simp only [List.map_append, List.map_cons, List.flatten_append, List.flatten_cons]
    rw [map_eq_of_forall₂ hX _ replicate_color_congr,
      map_eq_of_forall₂ hY _ replicate_color_congr]
    have hsizes : partAttribSize (mergeBP m p) = partAttribSize m + partAttribSize p := by
      unfold partAttribSize mergeBP
      dsimp only
      omega
    rw [show (mergeBP m p).style.colorKey = m.style.colorKey from rfl, hsizes,
      List.replicate_add, ← hf.2.1, List.append_assoc]

theorem forall₂_native_iff {L1 L2 : List BatchPart}
    (h : List.Forall₂ partRelOne L1 L2) :
    (∀ b ∈ L1, b.style.native = false) ↔ (∀ b ∈ L2, b.style.native = false) := by
  induction h with
  | nil => exact Iff.rfl
  | cons hpq hrest ih =>
    rw [List.forall_mem_cons, List.forall_mem_cons, hpq.1, ih]

theorem native_partsRel (B1 B2 : List BatchPart) (h : partsRel B1 B2) :
    (∀ b ∈ B1, b.style.native = false) ↔ (∀ b ∈ B2, b.style.native = false) := by
  rcases h with h | ⟨X1, X2, m, p, Y1, Y2, e1, e2, hX, hY, hf, hadj, hm1, hp1⟩
  · exact forall₂_native_iff h
  · subst e1
    subst e2
    simp only [List.forall_mem_append, List.forall_mem_cons]
    rw [forall₂_native_iff hX, forall₂_native_iff hY]
    constructor
    · rintro ⟨h1, h2, h3, h4⟩
      exact ⟨h1, h2, h4⟩
    · rintro ⟨h1, h2, h3⟩
      refine ⟨h1, h2, ?_, h3⟩
      rw [← hf.2.2]
      exact h2

theorem partsRel_nil_iff (B1 B2 : List BatchPart) (h : partsRel B1 B2) :
    B1 = [] ↔ B2 = [] := by
  rcases h with h | ⟨X1, X2, m, p, Y1, Y2, e1, e2, _⟩
  · constructor
    · intro h1
      subst h1
      rwa [List.forall₂_nil_left_iff] at h
    · intro h1
      subst h1
      rwa [List.forall₂_nil_right_iff] at h
  · subst e1
    subst e2
    constructor <;> intro h' <;> simp at h'

/-- The arrays and the packed buffer produced by the post-build stage agree
whenever the two accumulators agree on arrays and their batch lists are
`partsRel`-related (the prior-packed clause covers the zero-part branch,
which leaves the old packed buffer in place). -/
theorem finishBatches_fields (limit thr : Nat) (gA gB : Geometry) (accA accB : BuildAcc)
    (hv : accA.verts = accB.verts) (hu : accA.uvs = accB.uvs)
    (hi : accA.indices = accB.indices) (hPR : partsRel accA.batches accB.batches)
    (hpk : accA.batches = [] → gA.packed = gB.packed) :
    (finishBatches limit thr gA accA).verts = (finishBatches limit thr gB accB).verts ∧
    (finishBatches limit thr gA accA).uvs = (finishBatches limit thr gB accB).uvs ∧
    (finishBatches limit thr gA accA).indices = (finishBatches limit thr gB accB).indices ∧
    (finishBatches limit thr gA accA).packed = (finishBatches limit thr gB accB).packed := by
  have hnil := partsRel_nil_iff _ _ hPR
  have hlen : accA.verts.length = accB.verts.length := by rw [hv]
  unfold finishBatches rebuildCore widthSet
  by_cases hz : accA.batches.isEmpty = true
  · have hzA : accA.batches = [] := List.isEmpty_iff.mp hz
    have hzB : accB.batches.isEmpty = true := List.isEmpty_iff.mpr (hnil.mp hzA)
    rw [if_pos hz, if_pos hzB]
    exact ⟨hv, hu, hi, hpk hzA⟩
  · have hzB : ¬accB.batches.isEmpty = true := by
      intro hc
      exact hz (List.isEmpty_iff.mpr (hnil.mpr (List.isEmpty_iff.mp hc)))
    rw [if_neg hz, if_neg hzB]
    have hnat := native_partsRel _ _ hPR
    by_cases hcls : accA.verts.length ≤ thr ∧ (∀ b ∈ accA.batches, b.style.native = false) ∧
        accA.verts.length ≤ 65535
    · have hcls2 : accB.verts.length ≤ thr ∧ (∀ b ∈ accB.batches, b.style.native = false) ∧
          accB.verts.length ≤ 65535 := by
        refine ⟨hlen ▸ hcls.1, hnat.mp hcls.2.1, hlen ▸ hcls.2.2⟩
      rw [if_pos hcls, if_pos hcls2]
      refine ⟨hv, hu, hi, ?_⟩
      show packAttribs accA.verts accA.uvs (directColors accA.batches)
          (List.replicate accA.verts.length 0) =
        packAttribs accB.verts accB.uvs (directColors accB.batches)
          (List.replicate accB.verts.length 0)
      rw [hv, hu, directColors_partsRel _ _ hPR]
    · have hcls2 : ¬(accB.verts.length ≤ thr ∧ (∀ b ∈ accB.batches, b.style.native = false) ∧
          accB.verts.length ≤ 65535) := by
        intro hc
        exact hcls ⟨hlen ▸ hc.1, hnat.mpr hc.2.1, hlen ▸ hc.2.2⟩
      rw [if_neg hcls, if_neg hcls2]
      obtain ⟨hcol, htid⟩ :=
        buildDrawCalls_partsRel limit 0 (fun _ => 0) (fun _ => 0) _ _ hPR
      refine ⟨hv, hu, hi, ?_⟩
      show packAttribs accA.verts accA.uvs
          (buildDrawCalls limit 0 (fun _ => 0) (fun _ => 0) accA.batches).2.1
          (buildDrawCalls limit 0 (fun _ => 0) (fun _ => 0) accA.batches).2.2 =
        packAttribs accB.verts accB.uvs
          (buildDrawCalls limit 0 (fun _ => 0) (fun _ => 0) accB.batches).2.1
          (buildDrawCalls limit 0 (fun _ => 0) (fun _ => 0) accB.batches).2.2
      rw [hv, hu, hcol, htid]

/-- A builder invariant: the open part starts within the vertex array. -/
def openInv (acc : BuildAcc) : Prop :=
  ∀ op, acc.openPart = some op → op.attribStart ≤ acc.verts.length

theorem openInv_processStyle (acc : BuildAcc) (sty : Option GStyle) (td : TessData)
    (h : openInv acc) : openInv (processStyle acc sty td) := by
  cases sty with
  | none => exact h
  | some st =>
    by_cases hp : td.pts = []
    · rw [processStyle_degenerate acc st td hp]
      exact h
    · rw [processStyle_some acc st td hp]
      intro op hop
      cases hacc : acc.openPart with
      | none =>
        rw [hacc] at hop
        simp only [styleDelta] at hop
        cases hop
        simp
      | some o =>
        rw [hacc] at hop
        simp only [styleDelta] at hop
        split at hop
        · injection hop with hop
          subst hop
          have := h o hacc
          simp only [List.length_append]
          omega
        · cases hop
          simp

theorem openInv_processShape (acc : BuildAcc) (sh : ShapeRecord) (h : openInv acc) :
    openInv (processShape acc sh) :=
  openInv_processStyle _ _ _ (openInv_processStyle _ _ _ h)

theorem openInv_processShapes (shapes : List ShapeRecord) :
    ∀ acc : BuildAcc, openInv acc → openInv (processShapes acc shapes) := by
  induction shapes with
  | nil => exact fun acc h => h
  | cons sh rest ih =>
    intro acc h
    exact ih (processShape acc sh) (openInv_processShape acc sh h)

theorem openInv_accOf (g : Geometry) : openInv (accOf g) := by
  intro op hop
  cases hop

theorem closeOpen_arrays (acc : BuildAcc) :
    (closeOpen acc).verts = acc.verts ∧ (closeOpen acc).uvs = acc.uvs ∧
    (closeOpen acc).indices = acc.indices := by
  cases h : acc.openPart with
  | none => rw [closeOpen_none acc h]; exact ⟨rfl, rfl, rfl⟩
  | some op => simp [closeOpen, h]

/-- The batch-part half of the simulation between the incremental
accumulator (left) and the from-scratch accumulator (right): the two differ
at most by the scratch side still holding open the last part of the previous
run, either intact (first disjunct), or already merged with the incremental
side's currently open part (second disjunct); once that boundary part is
resolved, the closed lists stay `partsRel`-related and the open parts agree
(third disjunct). -/
def BSimB (i s : BuildAcc) : Prop :=
  (∃ bm : BatchPart, i.batches = s.batches ++ [bm] ∧ i.openPart = none ∧
    s.openPart = some ⟨bm.style, bm.attribStart, bm.indexStart⟩ ∧
    bm.attribEnd = i.verts.length ∧ bm.attribStart ≤ bm.attribEnd) ∨
  (∃ (bm : BatchPart) (op : OpenPart), i.batches = s.batches ++ [bm] ∧
    i.openPart = some op ∧
    s.openPart = some ⟨bm.style, bm.attribStart, bm.indexStart⟩ ∧
    fieldsEq bm.style op.style ∧ op.attribStart = bm.attribEnd ∧
    bm.attribStart ≤ bm.attribEnd ∧ op.attribStart ≤ i.verts.length) ∨
  (partsRel i.batches s.batches ∧ i.openPart = s.openPart)

/-- The simulation between the incremental build (resuming after the old
parts, open part closed) and the from-scratch build: equal shared arrays
plus the batch-part relation. -/
def BSim (i s : BuildAcc) : Prop :=
  i.verts = s.verts ∧ i.uvs = s.uvs ∧ i.indices = s.indices ∧ BSimB i s

theorem BSim_processStyle (i s : BuildAcc) (sty : Option GStyle) (td : TessData)
    (h : BSim i s) : BSim (processStyle i sty td) (processStyle s sty td) := by
  obtain ⟨hv, hu, hi, hb⟩ := h
  cases sty with
  | none => exact ⟨hv, hu, hi, hb⟩
  | some st =>
    by_cases hp : td.pts = []
    · rw [processStyle_degenerate i st td hp, processStyle_degenerate s st td hp]
      exact ⟨hv, hu, by rw [hi, hv], hb⟩
    · rw [processStyle_some i st td hp, processStyle_some s st td hp]
      refine ⟨by rw [hv], by rw [hu], by rw [hi, hv], ?_⟩
      rcases hb with ⟨bm, hb1, hb2, hb3, hb4, hb5⟩ |
        ⟨bm, op, hc1, hc2, hc3, hc4, hc5, hc6, hc7⟩ | ⟨hd1, hd2⟩
      · -- the scratch side still holds the boundary part open, ours is closed
        simp only [hb2, hb3, styleDelta, List.append_nil]
        by_cases hm : mergeable (some bm.style) (some st) = true
        · rw [if_pos hm]
          refine Or.inr (Or.inl ⟨bm, ⟨st, i.verts.length, i.indices.length⟩,
            ?_, rfl, rfl, mergeable_fieldsEq _ _ hm, hb4.symm, hb5, ?_⟩)
          · simp only [List.append_nil]
            exact hb1
          · dsimp only
            simp
        · rw [if_neg hm]
          refine Or.inr (Or.inr ⟨?_, ?_⟩)
          · dsimp only
            rw [hb1]
            exact Or.inl (List.rel_append (forall₂_partRelOne_refl _)
              (List.Forall₂.cons ⟨rfl, rfl, by dsimp only [closeAt]; rw [hb4, hv]⟩
                List.Forall₂.nil))
          · dsimp only
            rw [hv, hi]
      · -- boundary part already merged with our open part on the scratch side
        simp only [hc2, hc3, styleDelta]
        have hmeq : mergeable (some bm.style) (some st) = mergeable (some op.style) (some st) :=
          mergeable_congr bm.style op.style hc4 st
        by_cases hm : mergeable (some op.style) (some st) = true
        · rw [if_pos hm, if_pos (hmeq.trans hm)]
          refine Or.inr (Or.inl ⟨bm, op, ?_, rfl, rfl, hc4, hc5, hc6, ?_⟩)
          · dsimp only
            simp only [List.append_nil]
            exact hc1
          · dsimp only
            simp only [List.length_append]
            omega
        · rw [if_neg hm, if_neg (fun hcon => hm (hmeq.symm.trans hcon))]
          refine Or.inr (Or.inr ⟨?_, ?_⟩)
          · dsimp only
            rw [hc1, List.append_assoc]
            refine Or.inr ⟨s.batches, s.batches, bm,
              closeAt op i.verts.length i.indices.length, [], [],
              rfl, ?_, forall₂_partRelOne_refl _, List.Forall₂.nil,
              hc4, hc5.symm, hc6, hc7⟩
            dsimp only [closeAt, mergeBP]
            rw [hv, hi]
          · dsimp only
            rw [hv, hi]
      · -- past the boundary: related closed lists, identical open state
        simp only [hd2]
        cases hs : s.openPart with
        | none =>
          simp only [styleDelta, List.append_nil]
          exact Or.inr (Or.inr ⟨hd1, by dsimp only; rw [hv, hi]⟩)
        | some o =>
          simp only [styleDelta]
          by_cases hm : mergeable (some o.style) (some st) = true
          · rw [if_pos hm, if_pos hm]
            simp only [List.append_nil]
            exact Or.inr (Or.inr ⟨hd1, rfl⟩)
          · rw [if_neg hm, if_neg hm]
            refine Or.inr (Or.inr ⟨?_, ?_⟩)
            · dsimp only
              rw [hv, hi]
              exact partsRel_append_one _ _ _ hd1
            · dsimp only
              rw [hv, hi]

theorem BSim_processShape (i s : BuildAcc) (sh : ShapeRecord) (h : BSim i s) :
    BSim (processShape i sh) (processShape s sh) :=
  BSim_processStyle _ _ _ _ (BSim_processStyle _ _ _ _ h)

theorem BSim_processShapes (shapes : List ShapeRecord) :
    ∀ i s : BuildAcc, BSim i s → BSim (processShapes i shapes) (processShapes s shapes) := by
  induction shapes with
  | nil => exact fun i s h => h
  | cons sh rest ih => exact fun i s h => ih _ _ (BSim_processShape i s sh h)

theorem BSim_closeOpen (i s : BuildAcc) (h : BSim i s) :
    (closeOpen i).verts = (closeOpen s).verts ∧
    (closeOpen i).uvs = (closeOpen s).uvs ∧
    (closeOpen i).indices = (closeOpen s).indices ∧
    partsRel (closeOpen i).batches (closeOpen s).batches := by
  obtain ⟨hv, hu, hi, hb⟩ := h
  obtain ⟨hvi, hui, hii⟩ := closeOpen_arrays i
  obtain ⟨hvs, hus, his⟩ := closeOpen_arrays s
  refine ⟨by rw [hvi, hvs, hv], by rw [hui, hus, hu], by rw [hii, his, hi], ?_⟩
  rcases hb with ⟨bm, hb1, hb2, hb3, hb4, hb5⟩ |
    ⟨bm, op, hc1, hc2, hc3, hc4, hc5, hc6, hc7⟩ | ⟨hd1, hd2⟩
  · rw [closeOpen_none i hb2]
    simp only [closeOpen, hb3]
    rw [hb1]
    exact Or.inl (List.rel_append (forall₂_partRelOne_refl _)
      (List.Forall₂.cons ⟨rfl, rfl, by dsimp only [closeAt]; rw [hb4, hv]⟩
        List.Forall₂.nil))
  · simp only [closeOpen, hc2, hc3]
    rw [hc1, List.append_assoc]
    refine Or.inr ⟨s.batches, s.batches, bm,
      closeAt op i.verts.length i.indices.length, [], [],
      rfl, ?_, forall₂_partRelOne_refl _, List.Forall₂.nil,
      hc4, hc5.symm, hc6, hc7⟩
    dsimp only [closeAt, mergeBP]
    rw [hv, hi]
  · cases hs : s.openPart with
    | none =>
      rw [closeOpen_none i (hd2.trans hs), closeOpen_none s hs]
      exact hd1
    | some o =>
      simp only [closeOpen, hd2, hs]
      rw [hv, hi]
      exact partsRel_append_one _ _ _ hd1

theorem BSim_init (P : BuildAcc) (hInv : openInv P) :
    BSim ⟨P.verts, P.uvs, P.indices, (closeOpen P).batches, none⟩ P := by
  refine ⟨rfl, rfl, rfl, ?_⟩
  cases ho : P.openPart with
  | none =>
    rw [closeOpen_none P ho]
    exact Or.inr (Or.inr ⟨partsRel_refl _, ho.symm⟩)
  | some op =>
    refine Or.inl ⟨closeAt op P.verts.length P.indices.length, ?_, rfl, ?_, rfl,
      hInv op ho⟩
    · dsimp only
      simp only [closeOpen, ho]
    · dsimp only [closeAt]
      rw [ho]

theorem updateBatches_run (limit thr : Nat) (g : Geometry)
    (h1 : g.shapes.isEmpty = false) (h2 : g.dirty ≠ g.cacheDirty) :
    updateBatches limit thr g =
      finishBatches limit thr g
        (closeOpen (processShapes (accOf g) (g.shapes.drop g.shapeIndex))) := by
  unfold updateBatches
  rw [if_neg (by simp [h1]), if_neg h2]

theorem finishBatches_proj (limit thr : Nat) (g : Geometry) (acc : BuildAcc) :
    (finishBatches limit thr g acc).shapes = g.shapes ∧
    (finishBatches limit thr g acc).dirty = g.dirty ∧
    (finishBatches limit thr g acc).cacheDirty = g.dirty ∧
    (finishBatches limit thr g acc).shapeIndex = g.shapes.length ∧
    (finishBatches limit thr g acc).tessCount =
      g.tessCount + ((g.shapes.drop g.shapeIndex).map shapeCost).sum ∧
    (finishBatches limit thr g acc).verts = acc.verts ∧
    (finishBatches limit thr g acc).uvs = acc.uvs ∧
    (finishBatches limit thr g acc).indices = acc.indices ∧
    (finishBatches limit thr g acc).batches = acc.batches := by
  unfold finishBatches rebuildCore widthSet
  split
  · exact ⟨rfl, rfl, rfl, rfl, rfl, rfl, rfl, rfl, rfl⟩
  · split <;> exact ⟨rfl, rfl, rfl, rfl, rfl, rfl, rfl, rfl, rfl⟩

theorem finishBatches_packed_nil (limit thr : Nat) (g : Geometry) (acc : BuildAcc)
    (h : acc.batches = []) : (finishBatches limit thr g acc).packed = g.packed := by
  unfold finishBatches
  rw [if_pos (by simp [h])]
  rfl

/-- The from-scratch batch-part builder run over a whole shape list. -/
def buildOf (shapes : List ShapeRecord) : BuildAcc :=
  processShapes (accOf (freshGeometry shapes)) shapes

theorem updateBatches_scratch (limit thr : Nat) (shapes : List ShapeRecord)
    (h : shapes ≠ []) :
    updateBatches limit thr (freshGeometry shapes) =
      finishBatches limit thr (freshGeometry shapes) (closeOpen (buildOf shapes)) := by
  rw [updateBatches_run limit thr (freshGeometry shapes)
    (by simp [freshGeometry, h]) (by simp [freshGeometry])]
  have hd : (freshGeometry shapes).shapes.drop (freshGeometry shapes).shapeIndex
      = shapes := by
    simp [freshGeometry]
  rw [hd]
  rfl

theorem buildOf_append_one (shapes : List ShapeRecord) (sh : ShapeRecord) :
    buildOf (shapes ++ [sh]) = processShape (buildOf shapes) sh := by
  unfold buildOf processShapes
  rw [List.foldl_append]
  rfl

/-- Claim C4: incrementality — for every shape list built incrementally,
adding one shape after a prior build invokes tessellation only for the newly
added shape (the rebuild resumes from the `shapeIndex` cursor, so the
tessellation-work counter grows by exactly that shape's cost), and the
resulting vertex, uv, index and packed attribute buffers are equal to those
of a from-scratch build over the full shape list. -/
theorem incremental_build (limit thr : Nat) (shapes : List ShapeRecord) (sh : ShapeRecord) :
    ((updateBatches limit thr (addShape (updateBatches limit thr (freshGeometry shapes)) sh)).tessCount
      = (updateBatches limit thr (freshGeometry shapes)).tessCount + shapeCost sh) ∧
    ((updateBatches limit thr (addShape (updateBatches limit thr (freshGeometry shapes)) sh)).verts
      = (updateBatches limit thr (freshGeometry (shapes ++ [sh]))).verts) ∧
    ((updateBatches limit thr (addShape (updateBatches limit thr (freshGeometry shapes)) sh)).uvs
      = (updateBatches limit thr (freshGeometry (shapes ++ [sh]))).uvs) ∧
    ((updateBatches limit thr (addShape (updateBatches limit thr (freshGeometry shapes)) sh)).indices
      = (updateBatches limit thr (freshGeometry (shapes ++ [sh]))).indices) ∧
    ((updateBatches limit thr (addShape (updateBatches limit thr (freshGeometry shapes)) sh)).packed
      = (updateBatches limit thr (freshGeometry (shapes ++ [sh]))).packed) := by
  by_cases hsh : shapes = []
  · subst hsh
    rw [updateBatches_scratch limit thr ([] ++ [sh]) (by simp)]
    have hA1e : (addShape (updateBatches limit thr (freshGeometry [])) sh).shapes.isEmpty
        = false := rfl
    have hA2e : (addShape (updateBatches limit thr (freshGeometry [])) sh).dirty ≠
        (addShape (updateBatches limit thr (freshGeometry [])) sh).cacheDirty := by
      show ¬((0 : Int) + 1 = -1)
      decide
    rw [updateBatches_run limit thr _ hA1e hA2e]
    have hdropE : (addShape (updateBatches limit thr (freshGeometry [])) sh).shapes.drop
        (addShape (updateBatches limit thr (freshGeometry [])) sh).shapeIndex = [sh] := rfl
    rw [hdropE]
    have honeE : ∀ acc : BuildAcc, processShapes acc [sh] = processShape acc sh :=
      fun _ => rfl
    rw [honeE]
    rw [buildOf_append_one [] sh]
    have hAB : closeOpen (processShape
          (accOf (addShape (updateBatches limit thr (freshGeometry [])) sh)) sh)
        = closeOpen (processShape (buildOf []) sh) := rfl
    obtain ⟨hOv, hOu, hOi, hOp⟩ := finishBatches_fields limit thr
      (addShape (updateBatches limit thr (freshGeometry [])) sh)
      (freshGeometry ([] ++ [sh]))
      (closeOpen (processShape
        (accOf (addShape (updateBatches limit thr (freshGeometry [])) sh)) sh))
      (closeOpen (processShape (buildOf []) sh))
      (by rw [hAB]) (by rw [hAB]) (by rw [hAB])
      (by rw [hAB]; exact partsRel_refl _) (fun _ => rfl)
    refine ⟨?_, hOv, hOu, hOi, hOp⟩
    rw [(finishBatches_proj limit thr _ _).2.2.2.2.1, hdropE]
    have htce : (addShape (updateBatches limit thr (freshGeometry [])) sh).tessCount
        = (updateBatches limit thr (freshGeometry [])).tessCount := rfl
    rw [htce]
    simp
  · rw [updateBatches_scratch limit thr shapes hsh,
      updateBatches_scratch limit thr (shapes ++ [sh]) (by simp)]
    obtain ⟨hg1s, hg1d, hg1c, hg1x, hg1t, hg1v, hg1u, hg1i, hg1b⟩ :=
      finishBatches_proj limit thr (freshGeometry shapes) (closeOpen (buildOf shapes))
    have hg1s2 : (finishBatches limit thr (freshGeometry shapes)
        (closeOpen (buildOf shapes))).shapes = shapes := hg1s
    have hg1d2 : (finishBatches limit thr (freshGeometry shapes)
        (closeOpen (buildOf shapes))).dirty = 0 := hg1d
    have hg1c2 : (finishBatches limit thr (freshGeometry shapes)
        (closeOpen (buildOf shapes))).cacheDirty = 0 := hg1c
    have hg1x2 : (finishBatches limit thr (freshGeometry shapes)
        (closeOpen (buildOf shapes))).shapeIndex = shapes.length := hg1x
    have hA1 : (addShape (finishBatches limit thr (freshGeometry shapes)
        (closeOpen (buildOf shapes))) sh).shapes.isEmpty = false := by
      simp [addShape]
    have hA2 : (addShape (finishBatches limit thr (freshGeometry shapes)
          (closeOpen (buildOf shapes))) sh).dirty ≠
        (addShape (finishBatches limit thr (freshGeometry shapes)
          (closeOpen (buildOf shapes))) sh).cacheDirty := by
      simp only [addShape]
      rw [hg1d2, hg1c2]
      decide
    rw [updateBatches_run limit thr _ hA1 hA2]
    have hdropA : (addShape (finishBatches limit thr (freshGeometry shapes)
          (closeOpen (buildOf shapes))) sh).shapes.drop
        (addShape (finishBatches limit thr (freshGeometry shapes)
          (closeOpen (buildOf shapes))) sh).shapeIndex = [sh] := by
      simp only [addShape]
      rw [hg1s2, hg1x2]
      simp
    rw [hdropA]
    have hone : ∀ acc : BuildAcc, processShapes acc [sh] = processShape acc sh :=
      fun _ => rfl
    rw [hone]
    rw [buildOf_append_one shapes sh]
    have haccA : accOf (addShape (finishBatches limit thr (freshGeometry shapes)
          (closeOpen (buildOf shapes))) sh) =
        BuildAcc.mk (closeOpen (buildOf shapes)).verts (closeOpen (buildOf shapes)).uvs
          (closeOpen (buildOf shapes)).indices (closeOpen (buildOf shapes)).batches
          none := by
      simp only [accOf, addShape]
      rw [hg1v, hg1u, hg1i, hg1b]
    have hsimA : BSim (accOf (addShape (finishBatches limit thr (freshGeometry shapes)
        (closeOpen (buildOf shapes))) sh)) (buildOf shapes) := by
      rw [haccA]
      obtain ⟨c1, c2, c3⟩ := closeOpen_arrays (buildOf shapes)
      rw [c1, c2, c3]
      exact BSim_init (buildOf shapes)
        (openInv_processShapes shapes _ (openInv_accOf (freshGeometry shapes)))
    obtain ⟨hfv, hfu, hfi, hfR⟩ := BSim_closeOpen _ _ (BSim_processShape _ _ sh hsimA)
    have hpk : (closeOpen (processShape (accOf (addShape (finishBatches limit thr
          (freshGeometry shapes) (closeOpen (buildOf shapes))) sh)) sh)).batches = [] →
        (addShape (finishBatches limit thr (freshGeometry shapes)
          (closeOpen (buildOf shapes))) sh).packed =
        (freshGeometry (shapes ++ [sh])).packed := by
      intro hnil
      have hz := rebuild_zero_parts (addShape (finishBatches limit thr
        (freshGeometry shapes) (closeOpen (buildOf shapes))) sh) [sh] hnil
      have hb0 : (closeOpen (buildOf shapes)).batches = [] := hg1b.symm.trans hz.2
      exact finishBatches_packed_nil limit thr (freshGeometry shapes)
        (closeOpen (buildOf shapes)) hb0
    obtain ⟨hOv, hOu, hOi, hOp⟩ := finishBatches_fields limit thr
      (addShape (finishBatches limit thr (freshGeometry shapes)
        (closeOpen (buildOf shapes))) sh)
      (freshGeometry (shapes ++ [sh]))
      (closeOpen (processShape (accOf (addShape (finishBatches limit thr
        (freshGeometry shapes) (closeOpen (buildOf shapes))) sh)) sh))
      (closeOpen (processShape (buildOf shapes) sh))
      hfv hfu hfi hfR hpk
    refine ⟨?_, hOv, hOu, hOi, hOp⟩
    rw [(finishBatches_proj limit thr _ _).2.2.2.2.1, hdropA]
    simp only [addShape, List.map_cons, List.map_nil, List.sum_cons, List.sum_nil]
    omega
